import Mathlib

/-!
Verification of the AmDb storage-engine core: the hash-chained version manager
(`VersionManagerCython`), the WebAssembly database facade (`DatabaseWASM`), the
debounced flush protocol, and the skip-list write buffer (`SkipListCython`).

Python/Cython sources are shallowly embedded: byte strings become `List Nat`
(one `Nat` per byte), Python dicts become association lists with
insert-or-replace update (preserving insertion order, as CPython dicts do),
mutation becomes explicit state passing, and `while` loops become fueled or
measure-based recursion.  Machine integers that cannot overflow on the modelled
executions are `Nat`; 32-bit hash arithmetic is `Nat` reduced mod `2^32`.
-/

namespace AmDb

/-- Byte strings are lists of byte values. -/
abbrev Bytes := List Nat

/-! ## Byte-lexicographic comparison

`byteCmp` is the structural byte-lexicographic comparison: the shared prefix is
compared bytewise first, and two strings that agree on the shared prefix are
ordered shorter-first.  This is the order of Python `bytes` comparison (used by
`sorted` in `DatabaseWASM.get_root_hash`) and, as proved below, the order
implemented by the `memcmp`-based comparison in `SkipListCython.put_batch`. -/

/-- Structural byte-lexicographic comparison. -/
def byteCmp : Bytes → Bytes → Ordering
  | [], [] => .eq
  | [], _ :: _ => .lt
  | _ :: _, [] => .gt
  | a :: as, b :: bs => if a < b then .lt else if b < a then .gt else byteCmp as bs

/-- Sign of C `memcmp` restricted to the first `n` bytes of each argument.
The sources only test the sign of `memcmp`, so the model returns `-1`, `0` or
`1`.  Callers in the source never read past either buffer, so the
out-of-range case (a buffer shorter than `n`) is arbitrary. -/
def memcmpN : Bytes → Bytes → Nat → Int
  | _, _, 0 => 0
  | x :: xs, y :: ys, n + 1 =>
    if x < y then -1 else if y < x then 1 else memcmpN xs ys n
  | _, _, _ + 1 => 0

/-- The key comparison of `SkipListCython.put_batch` (guide lines 554-561):
equal lengths use a full `memcmp`; for unequal lengths the shared prefix is
compared and a tie is resolved with the longer key greater. -/
def srcCmp (nodeKey target : Bytes) : Int :=
  if nodeKey.length = target.length then
    memcmpN nodeKey target nodeKey.length
  else
    let minLen := min nodeKey.length target.length
    let c := memcmpN nodeKey target minLen
    if c = 0 then (if nodeKey.length > target.length then 1 else -1) else c

/-- Insert into a byteCmp-sorted list, keeping ascending order. -/
def insertSorted (k : Bytes) : List Bytes → List Bytes
  | [] => [k]
  | x :: xs => if byteCmp k x = .gt then x :: insertSorted k xs else k :: x :: xs

/-- Ascending sort of byte strings, the order of Python `sorted` on `bytes`
(used on dict keys, which are pairwise distinct, so any correct sort produces
Python's output). -/
def sortBytes : List Bytes → List Bytes
  | [] => []
  | x :: xs => insertSorted x (sortBytes xs)

/-- Non-strict byte-lexicographic order. -/
def bytesLe (a b : Bytes) : Prop := byteCmp a b ≠ Ordering.gt

/-! ## SHA-256

Executable SHA-256 (FIPS 180-4) over `Bytes`, used by
`VersionCython._compute_hash`, `DatabaseWASM.get_root_hash` and the batch
digests.  Words are `Nat` reduced mod `2^32`. -/

/-- Reduce to a 32-bit word. -/
def w32 (x : Nat) : Nat := x % 4294967296

/-- 32-bit modular addition. -/
def wadd (a b : Nat) : Nat := (a + b) % 4294967296

/-- 32-bit complement. -/
def wnot (x : Nat) : Nat := x ^^^ 4294967295

/-- Right rotation of a 32-bit word. -/
def rotr32 (x n : Nat) : Nat := w32 ((x >>> n) ||| (x <<< (32 - n)))

/-- SHA-256 choice function. -/
def shaCh (x y z : Nat) : Nat := (x &&& y) ^^^ (wnot x &&& z)

/-- SHA-256 majority function. -/
def shaMaj (x y z : Nat) : Nat := (x &&& y) ^^^ (x &&& z) ^^^ (y &&& z)

/-- SHA-256 big sigma 0. -/
def bsig0 (x : Nat) : Nat := rotr32 x 2 ^^^ rotr32 x 13 ^^^ rotr32 x 22

/-- SHA-256 big sigma 1. -/
def bsig1 (x : Nat) : Nat := rotr32 x 6 ^^^ rotr32 x 11 ^^^ rotr32 x 25

/-- SHA-256 small sigma 0. -/
def ssig0 (x : Nat) : Nat := rotr32 x 7 ^^^ rotr32 x 18 ^^^ (x >>> 3)

/-- SHA-256 small sigma 1. -/
def ssig1 (x : Nat) : Nat := rotr32 x 17 ^^^ rotr32 x 19 ^^^ (x >>> 10)

/-- The 64 SHA-256 round constants. -/
def sha256K : List Nat :=
  [1116352408, 1899447441, 3049323471, 3921009573,
   961987163, 1508970993, 2453635748, 2870763221,
   3624381080, 310598401, 607225278, 1426881987,
   1925078388, 2162078206, 2614888103, 3248222580,
   3835390401, 4022224774, 264347078, 604807628,
   770255983, 1249150122, 1555081692, 1996064986,
   2554220882, 2821834349, 2952996808, 3210313671,
   3336571891, 3584528711, 113926993, 338241895,
   666307205, 773529912, 1294757372, 1396182291,
   1695183700, 1986661051, 2177026350, 2456956037,
   2730485921, 2820302411, 3259730800, 3345764771,
   3516065817, 3600352804, 4094571909, 275423344,
   430227734, 506948616, 659060556, 883997877,
   958139571, 1322822218, 1537002063, 1747873779,
   1955562222, 2024104815, 2227730452, 2361852424,
   2428436474, 2756734187, 3204031479, 3329325298]

/-- The eight SHA-256 initial hash values. -/
def sha256IV : List Nat :=
  [1779033703, 3144134277, 1013904242, 2773480762,
   1359893119, 2600822924, 528734635, 1541459225]

/-- Big-endian 8-byte serialization of a 64-bit value. -/
def u64be (x : Nat) : Bytes :=
  [(x >>> 56) % 256, (x >>> 48) % 256, (x >>> 40) % 256, (x >>> 32) % 256,
   (x >>> 24) % 256, (x >>> 16) % 256, (x >>> 8) % 256, x % 256]

/-- Big-endian 4-byte serialization of a 32-bit word. -/
def u32be (x : Nat) : Bytes :=
  [(x >>> 24) % 256, (x >>> 16) % 256, (x >>> 8) % 256, x % 256]

/-- SHA-256 padding: append `0x80`, zero bytes up to 56 mod 64, then the
64-bit big-endian message length in bits. -/
def sha256Pad (msg : Bytes) : Bytes :=
  msg ++ 128 :: List.replicate ((119 - msg.length % 64) % 64) 0 ++ u64be (8 * msg.length)

/-- Group bytes into big-endian 32-bit words. -/
def toWordsBE : Bytes → List Nat
  | a :: b :: c :: d :: rest => (((a <<< 8 ||| b) <<< 8 ||| c) <<< 8 ||| d) :: toWordsBE rest
  | _ => []

/-- Extend the message schedule; `r` holds the words produced so far, most
recent first. -/
def sha256ExtendRev (r : List Nat) : Nat → List Nat
  | 0 => r
  | n + 1 =>
    sha256ExtendRev
      (wadd (wadd (ssig1 (r.getD 1 0)) (r.getD 6 0))
        (wadd (ssig0 (r.getD 14 0)) (r.getD 15 0)) :: r) n

/-- One SHA-256 round on the eight-word working state. -/
def sha256Round (st : List Nat) (kw : Nat × Nat) : List Nat :=
  match st with
  | [a, b, c, d, e, f, g, h] =>
    let t1 := wadd h (wadd (bsig1 e) (wadd (shaCh e f g) (wadd kw.1 kw.2)))
    let t2 := wadd (bsig0 a) (shaMaj a b c)
    [wadd t1 t2, a, b, c, wadd d t1, e, f, g]
  | _ => st

/-- Compress one 64-byte block into the state. -/
def sha256Block (st : List Nat) (block : Bytes) : List Nat :=
  let w := (sha256ExtendRev (toWordsBE block).reverse 48).reverse
  let st1 := (sha256K.zip w).foldl sha256Round st
  List.zipWith wadd st st1

/-- Split into 64-byte chunks.  The fuel argument (instantiated with the list
length, an upper bound on the number of chunks) makes the recursion structural
so that the kernel can evaluate it. -/
def chunks64Go : Nat → Bytes → List Bytes
  | 0, _ => []
  | _ + 1, [] => []
  | n + 1, l => l.take 64 :: chunks64Go n (l.drop 64)

/-- Split into 64-byte chunks. -/
def chunks64 (l : Bytes) : List Bytes := chunks64Go l.length l

/-- SHA-256 digest of a byte string (32 bytes). -/
def sha256 (msg : Bytes) : Bytes :=
  (((chunks64 (sha256Pad msg)).foldl sha256Block sha256IV).map u32be).flatten

/-! ## Association lists modelling Python dicts

CPython dicts keep insertion order; writing an existing key replaces its value
in place, writing a fresh key appends. -/

/-- Dict lookup (`d.get(k)` / `d[k]`). -/
def alookup (m : List (Bytes × α)) (k : Bytes) : Option α :=
  (m.find? fun p => p.1 == k).map (·.2)

/-- Dict write (`d[k] = v`): replace in place if present, else append. -/
def ainsert (m : List (Bytes × α)) (k : Bytes) (v : α) : List (Bytes × α) :=
  if (m.find? fun p => p.1 == k).isSome then
    m.map fun p => if p.1 == k then (p.1, v) else p
  else m ++ [(k, v)]

/-- Dict update (`d.update(u)`): write every binding of `u` into `d`. -/
def aupdate (m u : List (Bytes × α)) : List (Bytes × α) :=
  u.foldl (fun acc p => ainsert acc p.1 p.2) m

/-- The `versions_dict.setdefault(key, [])` followed by
`list.append(version_list, v)` idiom of `create_versions_batch`: append `v` to
the list stored at `k`, creating the entry if absent. -/
def appendAt (m : List (Bytes × List α)) (k : Bytes) (v : α) : List (Bytes × List α) :=
  if (m.find? fun p => p.1 == k).isSome then
    m.map fun p => if p.1 == k then (p.1, p.2 ++ [v]) else p
  else m ++ [(k, [v])]

/-! ## Version manager (`src/amdb/version_cython.pyx`)

`VersionCython` stores `(version, timestamp, value, prev_hash)` plus a lazily
computed, cached `hash` field.  The cached hash is a deterministic function of
the other four fields (`_compute_hash`, lines 35-46), so the model omits the
cache and recomputes it with `vhash`.  Timestamps (`time.time()` doubles in the
source) are opaque inputs to the hash; the model takes them as `Nat` and
serializes them in decimal, mirroring `str(...).encode()` for the integer
part.  The digest function is a parameter `H`, instantiated with `sha256` for
concrete runs; every structural theorem below holds for any `H`. -/

/-- A version record (`VersionCython`, lines 17-33). -/
structure VersionCython where
  version : Nat
  timestamp : Nat
  value : Bytes
  prev_hash : Option Bytes
deriving Repr, DecidableEq

/-- The canonical serialization hashed by `VersionCython._compute_hash`
(lines 40-45): `str(version).encode() + str(timestamp).encode() + value +
(prev_hash or b'')`. -/
def vcontent (r : VersionCython) : Bytes :=
  (Nat.toDigits 10 r.version).map Char.toNat ++
    (Nat.toDigits 10 r.timestamp).map Char.toNat ++
    r.value ++ r.prev_hash.getD []

/-- The (lazily cached) digest of a version record. -/
def vhash (H : Bytes → Bytes) (r : VersionCython) : Bytes := H (vcontent r)

/-- `VersionManagerCython` state: the per-key version lists and the
current-version index (lines 53-63). -/
structure VersionManagerCython where
  versions : List (Bytes × List VersionCython)
  current_versions : List (Bytes × Nat)
deriving Repr

/-- The empty version manager (`__cinit__`, lines 57-63). -/
def vmInit : VersionManagerCython := ⟨[], []⟩

/-- Accumulator of the `create_versions_batch` loop: the evolving
`versions_dict` (aliased to `self.versions`), the `updates_dict`, and the
output list. -/
structure BatchAcc where
  versions_dict : List (Bytes × List VersionCython)
  updates_dict : List (Bytes × Nat)
  out : List VersionCython

/-- One iteration of the `create_versions_batch` item loop (lines 146-175).
`current_versions` is the pre-batch index: the source binds
`get_method = current_versions_dict.get` and only applies `updates_dict` to
`current_versions` after the loop (line 178), so every lookup inside the loop
sees the pre-batch value.  When `skip_prev_hash` is false the previous
record's cached digest is forced (lines 155-162); the aggressive path for
batches over 20000 items (lines 116-141) differs from this loop only by
caching the per-key list references (`version_groups`), which alias the same
`versions_dict` lists, and by always skipping `prev_hash` — behaviour the
`skip_prev_hash` flag already captures, since any batch over 20000 items is
also over 5000. -/
def vmStep (H : Bytes → Bytes) (now : Nat) (skip_prev_hash : Bool)
    (current_versions : List (Bytes × Nat)) (acc : BatchAcc) (item : Bytes × Bytes) :
    BatchAcc :=
  let key := item.1
  let value := item.2
  let current_ver := (alookup current_versions key).getD 0
  let new_ver := current_ver + 1
  let prev_hash : Option Bytes :=
    if skip_prev_hash then none
    else
      match alookup acc.versions_dict key with
      | some l => l.getLast?.map (vhash H)
      | none => none
  let v : VersionCython := ⟨new_ver, now, value, prev_hash⟩
  { versions_dict := appendAt acc.versions_dict key v
    updates_dict := ainsert acc.updates_dict key new_ver
    out := acc.out ++ [v] }

/-- `VersionManagerCython.create_versions_batch` (lines 73-180).  Batches over
5000 items skip the `prev_hash` computation (line 113). -/
def create_versions_batch (H : Bytes → Bytes) (now : Nat)
    (st : VersionManagerCython) (items : List (Bytes × Bytes)) :
    VersionManagerCython × List VersionCython :=
  if items.length = 0 then (st, [])
  else
    let skip_prev_hash := decide (items.length > 5000)
    let acc := items.foldl (vmStep H now skip_prev_hash st.current_versions)
      ⟨st.versions, [], []⟩
    (⟨acc.versions_dict, aupdate st.current_versions acc.updates_dict⟩, acc.out)

/-- The record created by one `create_versions_batch` iteration for item `it`. -/
def vmStepRec (H : Bytes → Bytes) (now : Nat) (skip : Bool)
    (cur : List (Bytes × Nat)) (acc : BatchAcc) (it : Bytes × Bytes) : VersionCython :=
  ⟨(alookup cur it.1).getD 0 + 1, now, it.2,
    if skip then none
    else
      match alookup acc.versions_dict it.1 with
      | some l => l.getLast?.map (vhash H)
      | none => none⟩

/-- `VersionManagerCython.create_version` (lines 182-185). -/
def create_version (H : Bytes → Bytes) (now : Nat) (st : VersionManagerCython)
    (key value : Bytes) : VersionManagerCython × Option VersionCython :=
  let r := create_versions_batch H now st [(key, value)]
  (r.1, r.2.head?)

/-- The binary search of `VersionManagerCython.get_version` (lines 200-213).
`left` and `right` are Python integers; Python `//` is floor division, which
is `Int` division (`Int.ediv`) here.  The probe index is always in range on
the source's states; an out-of-range probe is mapped to the `None` result. -/
def bsearchVersions (vs : List VersionCython) (version : Nat) (left right : Int) :
    Option VersionCython :=
  if _h : left ≤ right then
    let mid := (left + right) / 2
    match vs[mid.toNat]? with
    | none => none
    | some r =>
      if r.version = version then some r
      else if r.version < version then bsearchVersions vs version (mid + 1) right
      else bsearchVersions vs version left (mid - 1)
  else none
termination_by (right + 1 - left).toNat
decreasing_by
  all_goals omega

/-- `VersionManagerCython.get_version` (lines 194-213). -/
def get_version (vm : VersionManagerCython) (key : Bytes) (version : Nat) :
    Option VersionCython :=
  match alookup vm.versions key with
  | none => none
  | some vs => bsearchVersions vs version 0 ((vs.length : Int) - 1)

/-- `VersionManagerCython.get_latest` (lines 187-192). -/
def get_latest (vm : VersionManagerCython) (key : Bytes) : Option VersionCython :=
  match alookup vm.versions key with
  | none => none
  | some vs => vs.getLast?

/-- The stored history of a key (the `versions[key]` list, empty if absent). -/
def vmHistory (vm : VersionManagerCython) (key : Bytes) : List VersionCython :=
  (alookup vm.versions key).getD []

/-- The per-key counter/history invariant of the version manager. -/
def VMInv (st : VersionManagerCython) : Prop :=
  ∀ k : Bytes,
    (alookup st.current_versions k).getD 0 = (vmHistory st k).length ∧
    (vmHistory st k).map (fun r => r.version) = List.range' 1 (vmHistory st k).length

/-- Run a sequence of batches (each with its own `time.time()` stamp) from a
given state. -/
def vmRunFrom (H : Bytes → Bytes) (st : VersionManagerCython)
    (batches : List (Nat × List (Bytes × Bytes))) : VersionManagerCython :=
  batches.foldl (fun s b => (create_versions_batch H b.1 s b.2).1) st

/-- Run a sequence of batches from the empty manager. -/
def vmRun (H : Bytes → Bytes) (batches : List (Nat × List (Bytes × Bytes))) :
    VersionManagerCython :=
  vmRunFrom H vmInit batches

/-- Hash-chain check for the tail of a history: each record's `prev_hash` must
be the recomputed digest of its predecessor. -/
def chainAux (H : Bytes → Bytes) : VersionCython → List VersionCython → Bool
  | _, [] => true
  | p, r :: rest => r.prev_hash == some (vhash H p) && chainAux H r rest

/-- End-to-end hash-chain check of one key's history: the first record carries
the empty sentinel (`prev_hash = None`), and every later record's `prev_hash`
equals the recomputed digest of the record immediately before it. -/
def chainOk (H : Bytes → Bytes) : List VersionCython → Bool
  | [] => true
  | r :: rest => r.prev_hash == none && chainAux H r rest

/-! ## The WebAssembly database facade (`DatabaseWASM`, build_wasm script)

The class keeps a value dict `data`, a per-key list dict `versions`, and one
global counter `current_version`.  All callers in the modelled claims pass
`bytes` keys and values, so the `key.encode()` coercions are identity.  The
digests returned by `put`/`batch_put` are not consulted by any claim; `put` is
modelled by its state effect, `batch_put` also by its returned digest. -/

/-- The tombstone value written by `DatabaseWASM.delete` (line 157). -/
def tombstone : Bytes := [95, 95, 68, 69, 76, 69, 84, 69, 68, 95, 95]

/-- A history entry of `DatabaseWASM.versions` (lines 103-107). -/
structure WEntry where
  version : Nat
  value : Bytes
  timestamp : Nat
deriving Repr, DecidableEq

/-- `DatabaseWASM` state (lines 85-90; `indexes` and `data_dir` are unused by
the modelled operations). -/
structure DatabaseWASM where
  data : List (Bytes × Bytes)
  versions : List (Bytes × List WEntry)
  current_version : Nat
deriving Repr

namespace DatabaseWASM

/-- A fresh database (`__init__`). -/
def init : DatabaseWASM := ⟨[], [], 0⟩

/-- `DatabaseWASM.put` (lines 92-111), by its state effect. -/
def put (db : DatabaseWASM) (now : Nat) (key value : Bytes) : DatabaseWASM :=
  let cv := db.current_version + 1
  { data := ainsert db.data key value
    versions := appendAt db.versions key ⟨cv, value, now⟩
    current_version := cv }

/-- `DatabaseWASM.batch_put` (lines 125-151): the per-item effect of `put`,
plus a digest of the concatenated keys and values. -/
def batch_put (db : DatabaseWASM) (now : Nat) (items : List (Bytes × Bytes)) :
    DatabaseWASM × Bytes :=
  let db1 := items.foldl (fun d it => d.put now it.1 it.2) db
  (db1, sha256 ((items.map fun it => it.1 ++ it.2).flatten))

/-- `DatabaseWASM.get` (lines 113-123): with a version bound, scan the key's
history most-recent-first for the first entry with `version <= bound`;
without one, read the value dict. -/
def get (db : DatabaseWASM) (key : Bytes) (version : Option Nat) : Option Bytes :=
  match version with
  | some v =>
    match alookup db.versions key with
    | some l => (l.reverse.find? fun e => e.version ≤ v).map (·.value)
    | none => none
  | none => alookup db.data key

/-- `DatabaseWASM.delete` (lines 153-160): overwrite a present key's value
with the tombstone and return `true`; return `false` if the key is absent. -/
def delete (db : DatabaseWASM) (key : Bytes) : DatabaseWASM × Bool :=
  if (alookup db.data key).isSome then
    ({ db with data := ainsert db.data key tombstone
               current_version := db.current_version + 1 }, true)
  else (db, false)

/-- `DatabaseWASM.get_history` (lines 168-171). -/
def get_history (db : DatabaseWASM) (key : Bytes) : List WEntry :=
  (alookup db.versions key).getD []

/-- `DatabaseWASM.get_root_hash` (lines 183-188): the fixed sentinel
`b'0' * 32` when `data` is empty, else the digest of the sorted concatenated
keys of `data`. -/
def get_root_hash (db : DatabaseWASM) : Bytes :=
  if db.data = [] then List.replicate 32 48
  else sha256 (sortBytes (db.data.map (·.1))).flatten

end DatabaseWASM

/-! ## Operation traces over `DatabaseWASM` -/

/-- An externally issued operation. -/
inductive WOp
  | put (now : Nat) (key value : Bytes)
  | batch_put (now : Nat) (items : List (Bytes × Bytes))
  | delete (key : Bytes)

/-- Apply one operation to the state. -/
def wStep (db : DatabaseWASM) : WOp → DatabaseWASM
  | .put now k v => db.put now k v
  | .batch_put now items => (db.batch_put now items).1
  | .delete k => (db.delete k).1

/-- Run an operation trace from the fresh database. -/
def wRun (ops : List WOp) : DatabaseWASM :=
  ops.foldl wStep DatabaseWASM.init

/-- A trace containing only writes (no deletes). -/
def putsOnly (ops : List WOp) : Prop :=
  ∀ op ∈ ops, match op with
    | WOp.delete _ => False
    | _ => True

/-- The most recently written value for a key along a trace, the specification
side of the read-your-writes claim: `put` writes its value, `batch_put` writes
each item in order, and `delete` of a previously written key writes the
tombstone. -/
def lastWritten (ops : List WOp) (k : Bytes) : Option Bytes :=
  ops.foldl
    (fun acc op =>
      match op with
      | WOp.put _ key v => if key = k then some v else acc
      | WOp.batch_put _ items =>
        items.foldl (fun a it => if it.1 = k then some it.2 else a) acc
      | WOp.delete key => if key = k ∧ acc.isSome then some tombstone else acc)
    none

/-- The keys of the store that are live in the sense of the specification
glossary: present and not logically deleted by a tombstone. -/
def liveKeys (db : DatabaseWASM) : List Bytes :=
  (db.data.filter fun p => p.2 ≠ tombstone).map (·.1)

/-! ## Debounced flush (persistence coordinator)

Modelled from the spec: the debounced `flush` protocol of
`Database.flush(async_mode, force_sync, debounce)`.  The implementation is
absent from the sources here — only the flush optimization document
(`_flush_debounce_interval`, default 100 ms; `_pending_flush`) and the
`DatabaseWASM.flush` stub are present — so the state machine is modelled from
spec section 4.5: if `debounce` is set and a flush completed within the
configured interval, the call is recorded as pending and returns a
deferred-success status without performing I/O; otherwise the flush executes a
physical persistence pass and records its completion time.  `io_count` counts
physical persistence passes. -/
structure FlushState where
  last_flush_time : Option Nat
  pending : Bool
  io_count : Nat
deriving Repr, DecidableEq

/-- Modelled from the spec: a `flush` call at time `now`.  Returns the new
state and the reported status (`true` = success, including deferred
success). -/
def flushCall (interval : Nat) (st : FlushState) (now : Nat) (debounce : Bool) :
    FlushState × Bool :=
  if debounce &&
      (match st.last_flush_time with
        | some t => decide (now - t < interval)
        | none => false) then
    ({ st with pending := true }, true)
  else
    ({ last_flush_time := some now, pending := false, io_count := st.io_count + 1 }, true)

/-! ## Skip-list write buffer (`SkipListCython`, guide lines 363-622)

The C node graph is modelled as a list of nodes indexed by address: address 0
is the header allocated by `__cinit__`, `malloc` of a node appends it, `NULL`
pointers are `none`.  `key_len`/`value_len` are the lengths of the modelled
byte lists.  The `while` search loops are modelled with a fuel argument
instantiated with the node count, which bounds the chain length on every
well-formed state.  The random level draws (`_random_level`) are inputs.

The shared `self.update` array is written for every level in
`range(self.level)` by each item's search loop before any of it is read by
that item's link loop (the batch-level initialization at lines 524-528 touches
only slots the search loop overwrites), so it is modelled as a per-item local
list.  The link loop at lines 607-609 interleaves reading
`update[i].forward[i]` with writing `update[i].forward[i] = new_node`; each
iteration touches a distinct slot index, so the reads all see the pre-link
state and the model splits them into `newForward` followed by `linkNew`. -/

/-- A skip-list node (struct `SkipListNode`, lines 381-389). -/
structure SkipListNode where
  key : Bytes
  value : Bytes
  version : Int
  timestamp : Nat
  level : Nat
  forward : List (Option Nat)
deriving Repr, DecidableEq

/-- Skip-list state (`SkipListCython` attributes, lines 397-402). -/
structure SkipListCython where
  mem : List SkipListNode
  level : Nat
  max_level : Nat
  max_size : Nat
  size : Nat
deriving Repr, DecidableEq

/-- `SkipListCython.__cinit__` (lines 404-425): a header node with a NULL
forward array of `max_level` slots, list level 1, size 0. -/
def slInit (max_level max_size : Nat) : SkipListCython :=
  ⟨[⟨[], [], 0, 0, max_level, List.replicate max_level none⟩], 1, max_level, max_size, 0⟩

/-- Read `mem[a].forward[i]` (NULL for a dangling address or slot). -/
def fwd (mem : List SkipListNode) (a i : Nat) : Option Nat :=
  match mem[a]? with
  | some n =>
    match n.forward[i]? with
    | some o => o
    | none => none
  | none => none

/-- Read `mem[a].key`. -/
def keyAt (mem : List SkipListNode) (a : Nat) : Bytes :=
  (mem[a]?.map (·.key)).getD []

/-- Read `mem[a].value`. -/
def valueAt (mem : List SkipListNode) (a : Nat) : Bytes :=
  (mem[a]?.map (·.value)).getD []

/-- Read `mem[a].level`. -/
def levelAt (mem : List SkipListNode) (a : Nat) : Nat :=
  (mem[a]?.map (·.level)).getD 0

/-- The inner `while` of the search (lines 552-566): advance along level `i`
while the next node's key compares below the target. -/
def advance (mem : List SkipListNode) (i : Nat) (key : Bytes) : Nat → Nat → Nat
  | 0, a => a
  | fuel + 1, a =>
    match fwd mem a i with
    | none => a
    | some b => if srcCmp (keyAt mem b) key < 0 then advance mem i key fuel b else a

/-- The level-descending search loop (lines 550-567) run from node `a` for
the levels below `j`, returning the `update` array: entry `i` of the result is
the node at which the search descended from level `i`. -/
def searchFrom (mem : List SkipListNode) (key : Bytes) (fuel : Nat) :
    Nat → Nat → List Nat
  | _, 0 => []
  | a, j + 1 =>
    let a1 := advance mem j key fuel a
    searchFrom mem key fuel a1 j ++ [a1]

/-- Overwrite value, version and timestamp of the node at `a` (the in-place
update of lines 577-590; the key, level and forward array are untouched). -/
def setValueAt (mem : List SkipListNode) (a : Nat) (value : Bytes) (version : Int)
    (ts : Nat) : List SkipListNode :=
  match mem[a]? with
  | some n => mem.set a { n with value := value, version := version, timestamp := ts }
  | none => mem

/-- Point `mem[a].forward[i]` at `target`. -/
def setFwdAt (mem : List SkipListNode) (a i target : Nat) : List SkipListNode :=
  match mem[a]? with
  | some n => mem.set a { n with forward := n.forward.set i (some target) }
  | none => mem

/-- The new node's forward array (lines 607-608): slot `j` takes
`update[j].forward[j]` as read before any relinking. -/
def newForward (mem : List SkipListNode) (upd : List Nat) (nl : Nat) :
    List (Option Nat) :=
  (List.range nl).map fun j => fwd mem (upd.getD j 0) j

/-- The relink writes of lines 607-609: for each level `j < nl`, point
`update[j].forward[j]` at the new node. -/
def linkNew (mem : List SkipListNode) (upd : List Nat) (newAddr : Nat) :
    Nat → List SkipListNode
  | 0 => mem
  | j + 1 => setFwdAt (linkNew mem upd newAddr j) (upd.getD j 0) j newAddr

/-- Allocate and link a brand-new node (lines 592-611). -/
def insertFresh (st : SkipListCython) (key value : Bytes) (version : Int)
    (ts : Nat) (nl : Nat) (upd : List Nat) : SkipListCython :=
  let newAddr := st.mem.length
  let node : SkipListNode := ⟨key, value, version, ts, nl, newForward st.mem upd nl⟩
  { st with
      mem := linkNew (st.mem ++ [node]) upd newAddr nl
      size := st.size + (key.length + value.length + 16) }

/-- Process one admitted item (lines 549-612): search, then either update the
existing node in place or insert a fresh node of level `nl`. -/
def insertItem (st : SkipListCython) (key value : Bytes) (version : Int)
    (ts : Nat) (nl : Nat) : SkipListCython :=
  let upd := searchFrom st.mem key st.mem.length 0 st.level
  let u0 := upd.getD 0 0
  match fwd st.mem u0 0 with
  | some c =>
    if keyAt st.mem c = key then
      { st with
          mem := setValueAt st.mem c value version ts
          size := st.size - (valueAt st.mem c).length - 16 + (value.length + 16) }
    else insertFresh st key value version ts nl upd
  | none => insertFresh st key value version ts nl upd

/-- The item loop of `put_batch` (lines 538-612): stop at the first item whose
full accounted size `key_len + value_len + 16` would push `size` over
`max_size`; count each applied item. -/
def put_batch_loop (ts : Nat) :
    SkipListCython → List ((Bytes × Bytes × Int) × Nat) → Nat → SkipListCython × Nat
  | st, [], cnt => (st, cnt)
  | st, (it, nl) :: rest, cnt =>
    let entry_size := it.1.length + it.2.1.length + 16
    if st.size + entry_size > st.max_size then (st, cnt)
    else put_batch_loop ts (insertItem st it.1 it.2.1 it.2.2 ts nl) rest (cnt + 1)

/-- The list-level extension of lines 524-528: `max_node_level` starts at 1
and takes the maximum of all drawn levels; the list level grows to it when it
is larger. -/
def levelExtend (st : SkipListCython) (node_levels : List Nat) : SkipListCython :=
  let max_node_level := node_levels.foldl max 1
  if max_node_level > st.level then { st with level := max_node_level } else st

/-- Apply items unconditionally in order (the effect of the item loop on the
entries it admits). -/
def applyItems (ts : Nat) (st : SkipListCython)
    (l : List ((Bytes × Bytes × Int) × Nat)) : SkipListCython :=
  l.foldl (fun s p => insertItem s p.1.1 p.1.2.1 p.1.2.2 ts p.2) st

/-- `SkipListCython.put_batch` (lines 469-622).  `node_levels` are the random
level draws of the extraction loop (lines 505-522), one per item; the list
level is first extended to their maximum (lines 524-528), then the items are
applied in order under the size budget. -/
def put_batch (st : SkipListCython) (ts : Nat) (items : List (Bytes × Bytes × Int))
    (node_levels : List Nat) : SkipListCython × Nat :=
  if items.length = 0 then (st, 0)
  else put_batch_loop ts (levelExtend st node_levels) (items.zip node_levels) 0

/-- Run a sequence of `put_batch` calls; each batch carries its timestamp,
its items and its level draws. -/
def slRun (st : SkipListCython)
    (batches : List (Nat × List (Bytes × Bytes × Int) × List Nat)) : SkipListCython :=
  batches.foldl (fun s b => (put_batch s b.1 b.2.1 b.2.2).1) st

/-- Walk the chain of `forward[i]` pointers from node `a` (exclusive). -/
def walkChain (mem : List SkipListNode) (i : Nat) : Nat → Nat → List Nat
  | 0, _ => []
  | fuel + 1, a =>
    match fwd mem a i with
    | none => []
    | some b => b :: walkChain mem i fuel b

/-- Bottom-level in-order traversal: the addresses reachable from the header
along `forward[0]`. -/
def traversal (st : SkipListCython) : List Nat :=
  walkChain st.mem 0 st.mem.length 0

/-- The keys of the bottom-level in-order traversal. -/
def traversalKeys (st : SkipListCython) : List Bytes :=
  (traversal st).map (keyAt st.mem)

/-- Strict byte-lexicographic precedence (shared prefix first, shorter key
first on a shared prefix). -/
def bytesLt (a b : Bytes) : Prop := byteCmp a b = .lt

instance (a b : Bytes) : Decidable (bytesLt a b) :=
  inferInstanceAs (Decidable (byteCmp a b = Ordering.lt))

/-- Does the node at `b` carry a key strictly below the target key?  The
predicate steering the search loops. -/
def pLt (mem : List SkipListNode) (key : Bytes) (b : Nat) : Bool :=
  decide (byteCmp (keyAt mem b) key = Ordering.lt)

/-- The subsequence of the spine made of nodes taller than level `i`. -/
def levFilter (mem : List SkipListNode) (i : Nat) (spine : List Nat) : List Nat :=
  spine.filter fun a => decide (i < levelAt mem a)

/-- The linked structure from node `a` along `forward[i]` is exactly the
address list `l` and then NULL. -/
inductive IsChain (mem : List SkipListNode) (i : Nat) : Nat → List Nat → Prop
  | nil {a : Nat} : fwd mem a i = none → IsChain mem i a []
  | cons {a b : Nat} {l : List Nat} :
      fwd mem a i = some b → IsChain mem i b l → IsChain mem i a (b :: l)

/-- Well-formedness of a skip-list state, witnessed by its bottom-level spine:
every level-`i` chain from the header is exactly the subsequence of the spine
of nodes taller than `i`, spine keys are strictly increasing, addresses are
distinct, valid, never the header, node levels are positive and bounded by the
list level with forward arrays of matching length, the header has a full
forward array, and `size` is the accounted byte total of the spine. -/
structure SLWF (st : SkipListCython) (spine : List Nat) : Prop where
  chains : ∀ i < st.max_level, IsChain st.mem i 0 (levFilter st.mem i spine)
  sorted : (spine.map (keyAt st.mem)).Pairwise bytesLt
  nodup : spine.Nodup
  not_header : 0 ∉ spine
  valid : ∀ a ∈ spine, a < st.mem.length
  level_pos : ∀ a ∈ spine, 1 ≤ levelAt st.mem a
  level_le : ∀ a ∈ spine, levelAt st.mem a ≤ st.level
  fwd_len : ∀ a ∈ spine,
    (st.mem[a]?.map (·.forward.length)).getD 0 = levelAt st.mem a
  header : (st.mem[0]?.map (·.forward.length)).getD 0 = st.max_level
  list_level_pos : 1 ≤ st.level
  list_level_le : st.level ≤ st.max_level
  size_eq : st.size =
    (spine.map fun a => (keyAt st.mem a).length + (valueAt st.mem a).length + 16).sum

end AmDb

namespace AmDb

/-! ## Basic facts about the byte order -/

theorem byteCmp_eq_iff (a : Bytes) : ∀ b, byteCmp a b = Ordering.eq ↔ a = b := by
  induction a with
  | nil => intro b; cases b <;> simp [byteCmp]
  | cons x xs ih =>
    intro b
    cases b with
    | nil => simp [byteCmp]
    | cons y ys =>
      by_cases h1 : x < y
      · have : x ≠ y := by omega
        simp [byteCmp, h1, this]
      · by_cases h2 : y < x
        · have : x ≠ y := by omega
          simp [byteCmp, h1, h2, this]
        · have hxy : x = y := by omega
          simp [byteCmp, h1, h2, hxy, ih ys]

theorem byteCmp_gt_iff (a : Bytes) : ∀ b, byteCmp a b = Ordering.gt ↔ byteCmp b a = Ordering.lt := by
  induction a with
  | nil => intro b; cases b <;> simp [byteCmp]
  | cons x xs ih =>
    intro b
    cases b with
    | nil => simp [byteCmp]
    | cons y ys =>
      by_cases h1 : x < y
      · have h2 : ¬ y < x := by omega
        simp [byteCmp, h1, h2]
      · by_cases h2 : y < x
        · simp [byteCmp, h1, h2]
        · simp [byteCmp, h1, h2, ih ys]

theorem byteCmp_lt_trans {a b c : Bytes} (hab : byteCmp a b = Ordering.lt)
    (hbc : byteCmp b c = Ordering.lt) : byteCmp a c = Ordering.lt := by
  induction a generalizing b c with
  | nil =>
    cases c with
    | nil =>
      cases b with
      | nil => simp [byteCmp] at hab
      | cons y ys => simp [byteCmp] at hbc
    | cons z zs => simp [byteCmp]
  | cons x xs ih =>
    cases b with
    | nil => simp [byteCmp] at hab
    | cons y ys =>
      cases c with
      | nil => simp [byteCmp] at hbc
      | cons z zs =>
        simp only [byteCmp] at hab hbc ⊢
        by_cases h1 : x < y <;> by_cases h2 : y < z
        · have : x < z := by omega
          simp [this]
        · simp only [h2, if_false] at hbc
          by_cases h3 : z < y
          · simp [h3] at hbc
          · have hyz : y = z := by omega
            have : x < z := by omega
            simp [this]
        · simp only [h1, if_false] at hab
          by_cases h3 : y < x
          · simp [h3] at hab
          · have hxy : x = y := by omega
            have : x < z := by omega
            simp [this]
        · simp only [h1, if_false] at hab
          simp only [h2, if_false] at hbc
          by_cases h3 : y < x
          · simp [h3] at hab
          · by_cases h4 : z < y
            · simp [h4] at hbc
            · have hxy : x = y := by omega
              have hyz : y = z := by omega
              subst hxy hyz
              by_cases h5 : x < x
              · omega
              · simp only [h5, if_false] at hab hbc ⊢
                exact ih hab hbc

theorem bytesLt_trans {a b c : Bytes} (hab : bytesLt a b) (hbc : bytesLt b c) :
    bytesLt a c := byteCmp_lt_trans hab hbc

theorem bytesLt_irrefl (a : Bytes) : ¬ bytesLt a a := by
  intro h
  have : byteCmp a a = Ordering.eq := (byteCmp_eq_iff a a).mpr rfl
  rw [bytesLt] at h
  rw [h] at this
  exact Ordering.noConfusion this

theorem bytesLt_ne {a b : Bytes} (h : bytesLt a b) : a ≠ b := by
  intro he
  subst he
  exact bytesLt_irrefl a h

theorem srcCmp_nil_left (b : Bytes) : srcCmp [] b = if b.length = 0 then 0 else -1 := by
  cases b with
  | nil => simp [srcCmp, memcmpN]
  | cons y ys => simp [srcCmp, memcmpN]

theorem srcCmp_nil_right (a : Bytes) : srcCmp a [] = if a.length = 0 then 0 else 1 := by
  cases a with
  | nil => simp [srcCmp, memcmpN]
  | cons x xs => simp [srcCmp, memcmpN]

theorem srcCmp_cons (x y : Nat) (xs ys : Bytes) :
    srcCmp (x :: xs) (y :: ys) =
      if x < y then -1 else if y < x then 1 else srcCmp xs ys := by
  by_cases hlen : xs.length = ys.length
  · simp [srcCmp, List.length_cons, hlen, memcmpN]
  · have hlen1 : ¬ (xs.length + 1 = ys.length + 1) := by omega
    have hmin : min (xs.length + 1) (ys.length + 1) = min xs.length ys.length + 1 := by
      omega
    simp only [srcCmp, List.length_cons, hlen1, if_false, hlen, hmin, memcmpN]
    by_cases h1 : x < y
    · simp [h1]
    · by_cases h2 : y < x
      · simp [h1, h2]
      · have hgt : xs.length + 1 > ys.length + 1 ↔ xs.length > ys.length := by omega
        by_cases h3 : memcmpN xs ys (min xs.length ys.length) = 0 <;>
          simp [h1, h2, h3, hgt]

theorem srcCmp_lt_iff (a : Bytes) : ∀ b, srcCmp a b < 0 ↔ byteCmp a b = Ordering.lt := by
  induction a with
  | nil =>
    intro b
    cases b with
    | nil => simp [srcCmp_nil_left, byteCmp]
    | cons y ys => simp [srcCmp_nil_left, byteCmp]
  | cons x xs ih =>
    intro b
    cases b with
    | nil => simp [srcCmp_nil_right, byteCmp]
    | cons y ys =>
      rw [srcCmp_cons]
      by_cases h1 : x < y
      · simp [byteCmp, h1]
      · by_cases h2 : y < x
        · simp [byteCmp, h1, h2]
        · simp [byteCmp, h1, h2, ih ys]

/-! ## Facts about the dict model -/

theorem alookup_nil (k : Bytes) : alookup ([] : List (Bytes × α)) k = none := rfl

theorem alookup_cons (k1 k : Bytes) (v : α) (m : List (Bytes × α)) :
    alookup ((k1, v) :: m) k = if k1 == k then some v else alookup m k := by
  by_cases h : k1 == k <;> simp [alookup, List.find?, h]

theorem alookup_append (m1 m2 : List (Bytes × α)) (k : Bytes) :
    alookup (m1 ++ m2) k = (alookup m1 k).orElse fun _ => alookup m2 k := by
  induction m1 with
  | nil => simp [alookup_nil, Option.orElse]
  | cons p t ih =>
    rw [List.cons_append, alookup_cons, alookup_cons]
    by_cases h : p.1 == k <;> simp [h, ih, Option.orElse]

theorem alookup_map_replace (m : List (Bytes × α)) (k : Bytes) (v : α) :
    alookup (m.map fun p => if p.1 == k then (p.1, v) else p) k =
      (alookup m k).map fun _ => v := by
  induction m with
  | nil => simp [alookup_nil]
  | cons p t ih =>
    by_cases h : p.1 == k
    · simp only [List.map_cons, h, if_true]
      rw [alookup_cons, alookup_cons]
      simp [h]
    · simp only [List.map_cons, h, if_false]
      rw [alookup_cons, alookup_cons]
      simpa [h] using ih

theorem alookup_isSome_find (m : List (Bytes × α)) (k : Bytes) :
    (m.find? fun p => p.1 == k).isSome = (alookup m k).isSome := by
  simp [alookup]

theorem alookup_ainsert_self (m : List (Bytes × α)) (k : Bytes) (v : α) :
    alookup (ainsert m k v) k = some v := by
  rw [ainsert]
  by_cases h : (m.find? fun p => p.1 == k).isSome
  · rw [if_pos h, alookup_map_replace]
    rw [alookup_isSome_find] at h
    obtain ⟨w, hw⟩ := Option.isSome_iff_exists.mp h
    simp [hw]
  · rw [if_neg h, alookup_append]
    rw [alookup_isSome_find] at h
    have : alookup m k = none := by
      cases he : alookup m k
      · rfl
      · rw [he] at h; simp at h
    simp [this, alookup_cons, Option.orElse]

theorem alookup_map_replace_ne (m : List (Bytes × α)) (k1 k : Bytes) (v : α)
    (h : k1 ≠ k) :
    alookup (m.map fun p => if p.1 == k1 then (p.1, v) else p) k = alookup m k := by
  induction m with
  | nil => simp [alookup_nil]
  | cons p t ih =>
    by_cases h2 : p.1 == k1
    · have hp1 : p.1 = k1 := by simpa using h2
      have hne : ¬ (p.1 == k) := by simp [hp1, h]
      simp only [List.map_cons, h2, if_true]
      rw [alookup_cons, alookup_cons]
      simpa [hne] using ih
    · simp only [List.map_cons, h2, if_false]
      rw [alookup_cons, alookup_cons]
      by_cases h3 : p.1 == k
      · simp [h3]
      · simpa [h3] using ih

theorem alookup_ainsert_ne (m : List (Bytes × α)) (k1 k : Bytes) (v : α) (h : k1 ≠ k) :
    alookup (ainsert m k1 v) k = alookup m k := by
  rw [ainsert]
  by_cases hp : (m.find? fun p => p.1 == k1).isSome
  · rw [if_pos hp, alookup_map_replace_ne m k1 k v h]
  · rw [if_neg hp, alookup_append, alookup_cons]
    have : ¬ (k1 == k) := by simp [h]
    simp only [this, if_false, alookup_nil]
    cases alookup m k <;> rfl

/-! ## C9: exact-match version lookup -/

theorem bsearch_sound (vs : List VersionCython) (v : Nat) :
    ∀ (left right : Int) (r : VersionCython),
      bsearchVersions vs v left right = some r → r ∈ vs ∧ r.version = v := by
  intro left0 right0
  induction left0, right0 using bsearchVersions.induct vs v with
  | case1 left right hle mid hnone =>
    intro r hr
    rw [bsearchVersions.eq_def] at hr
    simp only [hle, if_true, dif_pos] at hr
    rw [hnone] at hr
    exact absurd hr (by simp)
  | case2 left right hle mid r0 hsome heq =>
    intro r hr
    rw [bsearchVersions.eq_def] at hr
    simp only [hle, dif_pos] at hr
    rw [hsome] at hr
    simp only [heq, if_true] at hr
    cases hr
    exact ⟨List.getElem?_mem hsome, heq⟩
  | case3 left right hle mid r0 hsome hne hlt ih =>
    intro r hr
    rw [bsearchVersions.eq_def] at hr
    simp only [hle, dif_pos] at hr
    rw [hsome] at hr
    simp only [hne, if_false, hlt, if_true] at hr
    exact ih r hr
  | case4 left right hle mid r0 hsome hne hge ih =>
    intro r hr
    rw [bsearchVersions.eq_def] at hr
    simp only [hle, dif_pos] at hr
    rw [hsome] at hr
    simp only [hne, if_false, hge] at hr
    exact ih r hr
  | case5 left right hgt =>
    intro r hr
    rw [bsearchVersions.eq_def] at hr
    simp [hgt] at hr

/-- C9: `get_version(key, v)` returns a record only when some stored record
for that key has version exactly `v`; when no stored record matches exactly
(between stored numbers, or above the latest), it returns `None` rather than
the nearest earlier version. -/
theorem c9_get_version_exact_match (vm : VersionManagerCython) (key : Bytes) (v : Nat) :
    (∀ r, get_version vm key v = some r → r ∈ vmHistory vm key ∧ r.version = v) ∧
    ((∀ r ∈ vmHistory vm key, r.version ≠ v) → get_version vm key v = none) := by
  have part1 : ∀ r, get_version vm key v = some r → r ∈ vmHistory vm key ∧ r.version = v := by
    intro r hr
    rw [get_version] at hr
    cases hl : alookup vm.versions key with
    | none => rw [hl] at hr; exact absurd hr (by simp)
    | some vs =>
      rw [hl] at hr
      have h := bsearch_sound vs v 0 ((vs.length : Int) - 1) r hr
      rw [vmHistory, hl]
      exact ⟨h.1, h.2⟩
  refine ⟨part1, fun hno => ?_⟩
  cases he : get_version vm key v with
  | none => rfl
  | some r =>
    have h := part1 r he
    exact absurd h.2 (hno r h.1)

/-- Witness for C9: on a history holding versions 1 and 2, requesting
version 3 (above the latest, no exact match) yields `None` instead of the
nearest earlier version. -/
theorem c9_get_version_exact_match_witness :
    (∀ r ∈ vmHistory ⟨[([107], [⟨1, 0, [49], none⟩, ⟨2, 0, [50], none⟩])], [([107], 2)]⟩ [107],
        r.version ≠ 3) ∧
      get_version ⟨[([107], [⟨1, 0, [49], none⟩, ⟨2, 0, [50], none⟩])], [([107], 2)]⟩ [107] 3 =
        none :=
  ⟨by decide, (c9_get_version_exact_match _ [107] 3).2 (by decide)⟩

/-! ## Order and sorting lemmas -/

theorem bytesLe_iff (a b : Bytes) : bytesLe a b ↔ byteCmp a b = Ordering.lt ∨ a = b := by
  rw [bytesLe]
  constructor
  · intro h
    cases hc : byteCmp a b with
    | lt => exact Or.inl rfl
    | eq => exact Or.inr ((byteCmp_eq_iff a b).mp hc)
    | gt => exact absurd hc h
  · rintro (h | rfl)
    · rw [h]; intro hx; exact Ordering.noConfusion hx
    · rw [(byteCmp_eq_iff a a).mpr rfl]; intro hx; exact Ordering.noConfusion hx

theorem bytesLe_trans {a b c : Bytes} (h1 : bytesLe a b) (h2 : bytesLe b c) : bytesLe a c := by
  rcases (bytesLe_iff a b).mp h1 with h1 | rfl
  · rcases (bytesLe_iff b c).mp h2 with h2 | rfl
    · exact (bytesLe_iff a c).mpr (Or.inl (byteCmp_lt_trans h1 h2))
    · exact (bytesLe_iff a b).mpr (Or.inl h1)
  · exact h2

theorem bytesLe_antisymm {a b : Bytes} (h1 : bytesLe a b) (h2 : bytesLe b a) : a = b := by
  rw [bytesLe] at h1 h2
  cases hc : byteCmp a b with
  | eq => exact (byteCmp_eq_iff a b).mp hc
  | gt => exact absurd hc h1
  | lt =>
    have : byteCmp b a = Ordering.gt := by
      rw [byteCmp_gt_iff]; exact hc
    exact absurd this h2

theorem insertSorted_perm (k : Bytes) (l : List Bytes) :
    List.Perm (insertSorted k l) (k :: l) := by
  induction l with
  | nil => simp [insertSorted]
  | cons x xs ih =>
    rw [insertSorted]
    by_cases h : byteCmp k x = Ordering.gt
    · rw [if_pos h]
      exact (List.Perm.cons x ih).trans (List.Perm.swap k x xs)
    · rw [if_neg h]

theorem sortBytes_perm (l : List Bytes) : List.Perm (sortBytes l) l := by
  induction l with
  | nil => rfl
  | cons x xs ih =>
    rw [sortBytes]
    exact (insertSorted_perm x _).trans (List.Perm.cons x ih)

theorem insertSorted_sorted (k : Bytes) (l : List Bytes) (h : l.Sorted bytesLe) :
    (insertSorted k l).Sorted bytesLe := by
  induction l with
  | nil => simp [insertSorted, List.Sorted]
  | cons x xs ih =>
    rw [insertSorted]
    by_cases hc : byteCmp k x = Ordering.gt
    · rw [if_pos hc]
      rw [List.sorted_cons] at h
      rw [List.sorted_cons]
      refine ⟨?_, ih h.2⟩
      intro b hb
      have hb2 := (insertSorted_perm k xs).mem_iff.mp hb
      cases List.mem_cons.mp hb2 with
      | inl he =>
        subst he
        rw [byteCmp_gt_iff] at hc
        exact (bytesLe_iff x b).mpr (Or.inl hc)
      | inr hmem => exact h.1 b hmem
    · rw [if_neg hc]
      rw [List.sorted_cons]
      refine ⟨?_, h⟩
      intro b hb
      have hkx : bytesLe k x := hc
      cases List.mem_cons.mp hb with
      | inl he => subst he; exact hkx
      | inr hmem =>
        rw [List.sorted_cons] at h
        exact bytesLe_trans hkx (h.1 b hmem)

theorem sortBytes_sorted (l : List Bytes) : (sortBytes l).Sorted bytesLe := by
  induction l with
  | nil => simp [sortBytes, List.Sorted]
  | cons x xs ih => exact insertSorted_sorted x _ ih

theorem sortBytes_eq_of_perm {l1 l2 : List Bytes} (h : List.Perm l1 l2) :
    sortBytes l1 = sortBytes l2 := by
  haveI : IsAntisymm Bytes bytesLe := ⟨fun _ _ h1 h2 => bytesLe_antisymm h1 h2⟩
  exact List.eq_of_perm_of_sorted
    (((sortBytes_perm l1).trans h).trans (sortBytes_perm l2).symm)
    (sortBytes_sorted l1) (sortBytes_sorted l2)

/-! ## C5: delete semantics -/

/-- Counterexample for C5: after `put(b"a", b"1")` and a successful
`delete(b"a")`, `get(b"a")` returns the tombstone value `b"__DELETED__"`
rather than absent, and the tombstone does not appear in `get_history` at
all. -/
theorem c5_counterexample :
    ((DatabaseWASM.init.put 0 [97] [49]).delete [97]).1.get [97] none = some tombstone ∧
    tombstone ∉ (((DatabaseWASM.init.put 0 [97] [49]).delete [97]).1.get_history [97]).map
      (fun e => e.value) := by
  decide

/-- C5 (amended): `delete(key)` on a key that does not exist returns `false`
and raises no error, leaving the state unchanged; after a successful delete of
an existing key, `get(key)` returns the tombstone value `b"__DELETED__"`
rather than absent, and the tombstone write is not recorded in the version
history, so `get_history` is unchanged. -/
theorem c5_delete_semantics (db : DatabaseWASM) (k : Bytes) :
    (alookup db.data k = none → db.delete k = (db, false)) ∧
    (∀ v, alookup db.data k = some v →
      (db.delete k).2 = true ∧
      (db.delete k).1.get k none = some tombstone ∧
      (db.delete k).1.get_history k = db.get_history k) := by
  constructor
  · intro h
    rw [DatabaseWASM.delete]
    simp [h]
  · intro v hv
    rw [DatabaseWASM.delete]
    simp only [hv, Option.isSome_some, if_true]
    refine ⟨by trivial, ?_, by trivial⟩
    show alookup (ainsert db.data k tombstone) k = some tombstone
    exact alookup_ainsert_self db.data k tombstone

/-- Witness for C5: both branches at concrete inputs — deleting the absent key
`b"b"` returns `false` with the state unchanged, deleting the present key
`b"a"` returns `true`, makes `get` yield the tombstone and leaves the history
unchanged. -/
theorem c5_delete_semantics_witness :
    (alookup (DatabaseWASM.init.put 0 [97] [49]).data [98] = none ∧
      (DatabaseWASM.init.put 0 [97] [49]).delete [98] =
        (DatabaseWASM.init.put 0 [97] [49], false)) ∧
    (alookup (DatabaseWASM.init.put 0 [97] [49]).data [97] = some [49] ∧
      ((DatabaseWASM.init.put 0 [97] [49]).delete [97]).2 = true ∧
      ((DatabaseWASM.init.put 0 [97] [49]).delete [97]).1.get [97] none = some tombstone ∧
      ((DatabaseWASM.init.put 0 [97] [49]).delete [97]).1.get_history [97] =
        (DatabaseWASM.init.put 0 [97] [49]).get_history [97]) :=
  ⟨⟨by decide, (c5_delete_semantics _ [98]).1 (by decide)⟩,
   ⟨by decide, (c5_delete_semantics _ [97]).2 [49] (by decide)⟩⟩

/-! ## C6: the Merkle root and the key set -/

/-- Counterexample for C6: a store holding one tombstoned key has the same
live key set as the empty store, yet `get_root_hash` differs from the empty
store's fixed sentinel — the root is not a function of the live key set. -/
theorem c6_counterexample :
    liveKeys ((DatabaseWASM.init.put 0 [107] [49]).delete [107]).1 = liveKeys DatabaseWASM.init ∧
    DatabaseWASM.get_root_hash ((DatabaseWASM.init.put 0 [107] [49]).delete [107]).1 ≠
      DatabaseWASM.get_root_hash DatabaseWASM.init := by
  decide

/-- C6 (amended): `get_root_hash` is a pure deterministic function of the set
of keys present in the store, tombstoned keys included: two stores holding the
same present-key set yield the same root (hence any operation that does not
change the present-key set does not change the root), and the empty store
yields the fixed sentinel digest `b"0" * 32`. -/
theorem c6_root_hash_of_key_set (db1 db2 : DatabaseWASM)
    (h1 : (db1.data.map Prod.fst).Nodup) (h2 : (db2.data.map Prod.fst).Nodup)
    (hset : ∀ k : Bytes, k ∈ db1.data.map Prod.fst ↔ k ∈ db2.data.map Prod.fst) :
    db1.get_root_hash = db2.get_root_hash ∧
    DatabaseWASM.init.get_root_hash = List.replicate 32 48 := by
  refine ⟨?_, by decide⟩
  have hperm : List.Perm (db1.data.map Prod.fst) (db2.data.map Prod.fst) :=
    (List.perm_ext_iff_of_nodup h1 h2).mpr hset
  by_cases he : db1.data = []
  · have he2 : db2.data = [] := by
      cases hd : db2.data with
      | nil => rfl
      | cons p t =>
        exfalso
        have hm : p.1 ∈ db2.data.map Prod.fst := by rw [hd]; simp
        have := (hset p.1).mpr hm
        rw [he] at this
        simp at this
    rw [DatabaseWASM.get_root_hash, DatabaseWASM.get_root_hash, if_pos he, if_pos he2]
  · have he2 : db2.data ≠ [] := by
      intro hd
      cases hx : db1.data with
      | nil => exact he hx
      | cons p t =>
        have hm : p.1 ∈ db1.data.map Prod.fst := by rw [hx]; simp
        have := (hset p.1).mp hm
        rw [hd] at this
        simp at this
    rw [DatabaseWASM.get_root_hash, DatabaseWASM.get_root_hash, if_neg he, if_neg he2,
      sortBytes_eq_of_perm hperm]

/-- Witness for C6: two stores built in different orders with different values
but the same present-key set yield the same root. -/
theorem c6_root_hash_of_key_set_witness :
    (∀ k : Bytes,
        k ∈ ((DatabaseWASM.init.put 0 [97] [49]).put 1 [98] [50]).data.map Prod.fst ↔
          k ∈ ((DatabaseWASM.init.put 5 [98] [60]).put 6 [97] [61]).data.map Prod.fst) ∧
      DatabaseWASM.get_root_hash ((DatabaseWASM.init.put 0 [97] [49]).put 1 [98] [50]) =
        DatabaseWASM.get_root_hash ((DatabaseWASM.init.put 5 [98] [60]).put 6 [97] [61]) := by
  have hset : ∀ k : Bytes,
      k ∈ ((DatabaseWASM.init.put 0 [97] [49]).put 1 [98] [50]).data.map Prod.fst ↔
        k ∈ ((DatabaseWASM.init.put 5 [98] [60]).put 6 [97] [61]).data.map Prod.fst := by
    intro k
    show k ∈ [[97], [98]] ↔ k ∈ ([[98], [97]] : List Bytes)
    simp [or_comm]
  exact ⟨hset, (c6_root_hash_of_key_set _ _ (by decide) (by decide) hset).1⟩

/-! ## C7: versioned reads -/

theorem find_reverse_eq_filter_getLast (p : α → Bool) (l : List α) :
    l.reverse.find? p = (l.filter p).getLast? := by
  induction l using List.reverseRecOn with
  | nil => rfl
  | append_singleton t a ih =>
    rw [List.reverse_append, List.filter_append]
    have hfa : List.filter p [a] = if p a then [a] else [] := by
      rw [List.filter_cons]
      by_cases hp : p a <;> simp [hp]
    by_cases hp : p a
    · rw [List.reverse_singleton]
      rw [List.singleton_append, List.find?_cons_of_pos _ hp, hfa, if_pos hp,
        List.getLast?_concat]
    · rw [List.reverse_singleton, List.singleton_append, List.find?_cons_of_neg _ hp, hfa,
        if_neg hp, List.append_nil, ih]

theorem batch_data_lookup (now : Nat) (k : Bytes) :
    ∀ (items : List (Bytes × Bytes)) (db : DatabaseWASM),
      alookup (items.foldl (fun d it => d.put now it.1 it.2) db).data k =
        items.foldl (fun a it => if it.1 = k then some it.2 else a) (alookup db.data k) := by
  intro items
  induction items with
  | nil => intro db; rfl
  | cons it rest ih =>
    intro db
    rw [List.foldl_cons, List.foldl_cons, ih]
    congr 1
    show alookup (ainsert db.data it.1 it.2) k = if it.1 = k then some it.2 else alookup db.data k
    by_cases h : it.1 = k
    · subst h; rw [alookup_ainsert_self, if_pos rfl]
    · rw [alookup_ainsert_ne _ _ _ _ h, if_neg h]

theorem data_lookup_run (k : Bytes) :
    ∀ (ops : List WOp), putsOnly ops → ∀ (db : DatabaseWASM),
      alookup ((ops.foldl wStep db).data) k =
        ops.foldl
          (fun acc op =>
            match op with
            | WOp.put _ key v => if key = k then some v else acc
            | WOp.batch_put _ items =>
              items.foldl (fun a it => if it.1 = k then some it.2 else a) acc
            | WOp.delete key => if key = k ∧ acc.isSome then some tombstone else acc)
          (alookup db.data k) := by
  intro ops
  induction ops with
  | nil => intro _ db; rfl
  | cons op rest ih =>
    intro h db
    have hrest : putsOnly rest := fun o ho => h o (List.mem_cons_of_mem _ ho)
    rw [List.foldl_cons, List.foldl_cons, ih hrest]
    congr 1
    cases op with
    | put now key v =>
      show alookup (ainsert db.data key v) k = if key = k then some v else alookup db.data k
      by_cases hk : key = k
      · subst hk; rw [alookup_ainsert_self, if_pos rfl]
      · rw [alookup_ainsert_ne _ _ _ _ hk, if_neg hk]
    | batch_put now items => exact batch_data_lookup now k items db
    | delete key => exact absurd (h _ (List.mem_cons_self _ _)) (by simp)

/-- C7: `get(key)` with no version argument returns the most recently written
value for that key along any trace of puts and batch puts, and for every
state, `get(key, v)` returns the value of the most recent history entry whose
version is at most `v`, or absent when no such entry exists. -/
theorem c7_get_semantics (ops : List WOp) (h : putsOnly ops) :
    (∀ k, (wRun ops).get k none = lastWritten ops k) ∧
    (∀ (db : DatabaseWASM) (k : Bytes) (v : Nat),
      db.get k (some v) =
        (((db.get_history k).filter fun e => decide (e.version ≤ v)).getLast?).map
          fun e => e.value) := by
  constructor
  · intro k
    show alookup (wRun ops).data k = lastWritten ops k
    rw [wRun, data_lookup_run k ops h DatabaseWASM.init, lastWritten]
    rfl
  · intro db k v
    cases hl : alookup db.versions k with
    | none =>
      simp only [DatabaseWASM.get, DatabaseWASM.get_history, hl]
      rfl
    | some l =>
      simp only [DatabaseWASM.get, DatabaseWASM.get_history, hl]
      rw [find_reverse_eq_filter_getLast]
      rfl

/-- Witness for C7, the spec scenario: after `put(b"a", b"1")` then
`put(b"a", b"2")`, `get(b"a")` yields `b"2"` (the record carrying it being
version 2) and `get(b"a", version=1)` yields `b"1"`. -/
theorem c7_get_semantics_witness :
    putsOnly [WOp.put 0 [97] [49], WOp.put 1 [97] [50]] ∧
    (wRun [WOp.put 0 [97] [49], WOp.put 1 [97] [50]]).get [97] none = some [50] ∧
    (wRun [WOp.put 0 [97] [49], WOp.put 1 [97] [50]]).get [97] (some 1) = some [49] ∧
    ((wRun [WOp.put 0 [97] [49], WOp.put 1 [97] [50]]).get_history [97]).map
      (fun e => e.version) = [1, 2] := by
  have h : putsOnly [WOp.put 0 [97] [49], WOp.put 1 [97] [50]] := by
    intro op hop
    rcases List.mem_cons.mp hop with rfl | hop2
    · trivial
    · rcases List.mem_cons.mp hop2 with rfl | hop3
      · trivial
      · simp at hop3
  refine ⟨h, ?_, by decide, by decide⟩
  rw [(c7_get_semantics _ h).1 [97]]
  decide

/-! ## C8: debounced flush -/

/-- C8: with debounce enabled, a flush call arriving within the configured
interval of the last completed flush performs no I/O and returns a
deferred-success status; and any two debounced flush calls within one debounce
window of each other perform at most one physical persistence pass while both
report success. -/
theorem c8_flush_debounce (interval : Nat) (st : FlushState) :
    (∀ t now, st.last_flush_time = some t → now - t < interval →
      flushCall interval st now true = ({ st with pending := true }, true)) ∧
    (∀ t1 t2, t2 - t1 < interval →
      (flushCall interval st t1 true).2 = true ∧
      (flushCall interval (flushCall interval st t1 true).1 t2 true).2 = true ∧
      (flushCall interval (flushCall interval st t1 true).1 t2 true).1.io_count ≤
        st.io_count + 1) := by
  constructor
  · intro t now hlast hwin
    rw [flushCall]
    simp [hlast, hwin]
  · intro t1 t2 hw
    cases hl : st.last_flush_time with
    | none => simp [flushCall, hl, hw]
    | some t0 =>
      by_cases hd : t1 - t0 < interval
      · by_cases hd2 : t2 - t0 < interval <;> simp [flushCall, hl, hd, hd2]
      · simp [flushCall, hl, hd, hw]

/-- Witness for C8 at concrete times: a call 50 ms after a completed flush
with a 100 ms interval is deferred without I/O, and two calls at 120 ms and
150 ms perform at most one pass with both reporting success. -/
theorem c8_flush_debounce_witness :
    ((⟨some 0, false, 5⟩ : FlushState).last_flush_time = some 0 ∧ 50 - 0 < 100 ∧
      flushCall 100 ⟨some 0, false, 5⟩ 50 true = (⟨some 0, true, 5⟩, true)) ∧
    (150 - 120 < 100 ∧
      (flushCall 100 ⟨some 0, false, 5⟩ 120 true).2 = true ∧
      (flushCall 100 (flushCall 100 ⟨some 0, false, 5⟩ 120 true).1 150 true).2 = true ∧
      (flushCall 100 (flushCall 100 ⟨some 0, false, 5⟩ 120 true).1 150 true).1.io_count ≤
        5 + 1) :=
  ⟨⟨rfl, by decide, (c8_flush_debounce 100 ⟨some 0, false, 5⟩).1 0 50 rfl (by decide)⟩,
   ⟨by decide,
    ((c8_flush_debounce 100 ⟨some 0, false, 5⟩).2 120 150 (by decide)).1,
    ((c8_flush_debounce 100 ⟨some 0, false, 5⟩).2 120 150 (by decide)).2.1,
    ((c8_flush_debounce 100 ⟨some 0, false, 5⟩).2 120 150 (by decide)).2.2⟩⟩

/-! ## C1: per-key version numbering -/

theorem alookup_none_iff (m : List (Bytes × α)) (k : Bytes) :
    alookup m k = none ↔ k ∉ m.map Prod.fst := by
  induction m with
  | nil => simp [alookup_nil]
  | cons p t ih =>
    rw [alookup_cons]
    by_cases h : p.1 == k
    · have : p.1 = k := by simpa using h
      simp [h, this]
    · have : p.1 ≠ k := by simpa using h
      simp [h, ih, this]
      tauto

theorem alookup_map_adjust (m : List (Bytes × α)) (k : Bytes) (f : α → α) :
    alookup (m.map fun p => if p.1 == k then (p.1, f p.2) else p) k =
      (alookup m k).map f := by
  induction m with
  | nil => simp [alookup_nil]
  | cons p t ih =>
    by_cases h : p.1 == k
    · simp only [List.map_cons, h, if_true]
      rw [alookup_cons, alookup_cons]
      simp [h]
    · simp only [List.map_cons, h, if_false]
      rw [alookup_cons, alookup_cons]
      simpa [h] using ih

theorem alookup_map_adjust_ne (m : List (Bytes × α)) (k1 k : Bytes) (f : α → α)
    (h : k1 ≠ k) :
    alookup (m.map fun p => if p.1 == k1 then (p.1, f p.2) else p) k = alookup m k := by
  induction m with
  | nil => simp [alookup_nil]
  | cons p t ih =>
    by_cases h2 : p.1 == k1
    · have hp1 : p.1 = k1 := by simpa using h2
      have hne : ¬ (p.1 == k) := by simp [hp1, h]
      simp only [List.map_cons, h2, if_true]
      rw [alookup_cons, alookup_cons]
      simpa [hne] using ih
    · simp only [List.map_cons, h2, if_false]
      rw [alookup_cons, alookup_cons]
      by_cases h3 : p.1 == k
      · simp [h3]
      · simpa [h3] using ih

theorem alookup_appendAt_self (m : List (Bytes × List α)) (k : Bytes) (v : α) :
    alookup (appendAt m k v) k = some ((alookup m k).getD [] ++ [v]) := by
  rw [appendAt]
  by_cases h : (m.find? fun p => p.1 == k).isSome
  · rw [if_pos h]
    rw [alookup_map_adjust m k (fun l => l ++ [v])]
    rw [alookup_isSome_find] at h
    obtain ⟨w, hw⟩ := Option.isSome_iff_exists.mp h
    simp [hw]
  · rw [if_neg h, alookup_append]
    rw [alookup_isSome_find] at h
    have hnone : alookup m k = none := by
      cases he : alookup m k
      · rfl
      · rw [he] at h; simp at h
    simp [hnone, alookup_cons, Option.orElse]

theorem alookup_appendAt_ne (m : List (Bytes × List α)) (k1 k : Bytes) (v : α)
    (h : k1 ≠ k) : alookup (appendAt m k1 v) k = alookup m k := by
  rw [appendAt]
  by_cases hp : (m.find? fun p => p.1 == k1).isSome
  · rw [if_pos hp]
    exact alookup_map_adjust_ne m k1 k (fun l => l ++ [v]) h
  · rw [if_neg hp, alookup_append, alookup_cons]
    have : ¬ (k1 == k) := by simp [h]
    simp only [this, if_false, alookup_nil]
    cases alookup m k <;> rfl

theorem keys_map_adjust (m : List (Bytes × α)) (k : Bytes) (f : α → α) :
    (m.map fun p => if p.1 == k then (p.1, f p.2) else p).map Prod.fst =
      m.map Prod.fst := by
  induction m with
  | nil => rfl
  | cons p t ih =>
    simp only [List.map_cons, ih]
    congr 1
    split <;> rfl

theorem ainsert_keys (m : List (Bytes × α)) (k : Bytes) (v : α) :
    (ainsert m k v).map Prod.fst =
      if (alookup m k).isSome then m.map Prod.fst else m.map Prod.fst ++ [k] := by
  rw [ainsert, alookup_isSome_find]
  by_cases h : (alookup m k).isSome
  · rw [if_pos h, if_pos h]
    exact keys_map_adjust m k (fun _ => v)
  · rw [if_neg h, if_neg h, List.map_append]
    rfl

theorem ainsert_keys_nodup (m : List (Bytes × α)) (k : Bytes) (v : α)
    (h : (m.map Prod.fst).Nodup) : ((ainsert m k v).map Prod.fst).Nodup := by
  rw [ainsert_keys]
  by_cases hp : (alookup m k).isSome
  · rw [if_pos hp]; exact h
  · rw [if_neg hp]
    have hk : k ∉ m.map Prod.fst := by
      rw [← alookup_none_iff]
      cases hx : alookup m k
      · rfl
      · rw [hx] at hp; simp at hp
    simp [List.nodup_append, h, hk]

theorem alookup_aupdate_not_mem (m u : List (Bytes × α)) (k : Bytes)
    (h : k ∉ u.map Prod.fst) : alookup (aupdate m u) k = alookup m k := by
  induction u generalizing m with
  | nil => rfl
  | cons p t ih =>
    rw [aupdate, List.foldl_cons]
    have hne : p.1 ≠ k := by
      intro he
      exact h (by rw [← he]; simp)
    have ht : k ∉ t.map Prod.fst := fun hx => h (by simp [hx])
    rw [show t.foldl (fun acc q => ainsert acc q.1 q.2) (ainsert m p.1 p.2) =
        aupdate (ainsert m p.1 p.2) t from rfl, ih _ ht,
      alookup_ainsert_ne _ _ _ _ hne]

theorem alookup_aupdate (m u : List (Bytes × α)) (k : Bytes)
    (hu : (u.map Prod.fst).Nodup) :
    alookup (aupdate m u) k =
      match alookup u k with
      | some v => some v
      | none => alookup m k := by
  induction u generalizing m with
  | nil => rfl
  | cons p t ih =>
    rw [aupdate, List.foldl_cons, alookup_cons]
    rw [List.map_cons, List.nodup_cons] at hu
    by_cases h : p.1 == k
    · have hpk : p.1 = k := by simpa using h
      have ht : k ∉ t.map Prod.fst := by rw [← hpk]; exact hu.1
      rw [show t.foldl (fun acc q => ainsert acc q.1 q.2) (ainsert m p.1 p.2) =
          aupdate (ainsert m p.1 p.2) t from rfl,
        alookup_aupdate_not_mem _ _ _ ht, hpk, alookup_ainsert_self]
      simp [h]
    · rw [show t.foldl (fun acc q => ainsert acc q.1 q.2) (ainsert m p.1 p.2) =
          aupdate (ainsert m p.1 p.2) t from rfl, ih _ hu.2]
      have hne : p.1 ≠ k := by simpa using h
      simp only [h, if_false]
      cases alookup t k with
      | none => simp [alookup_ainsert_ne _ _ _ _ hne]
      | some w => rfl

theorem vmStep_eq (H : Bytes → Bytes) (now : Nat) (skip : Bool)
    (cur : List (Bytes × Nat)) (acc : BatchAcc) (it : Bytes × Bytes) :
    vmStep H now skip cur acc it =
      ⟨appendAt acc.versions_dict it.1 (vmStepRec H now skip cur acc it),
       ainsert acc.updates_dict it.1 ((alookup cur it.1).getD 0 + 1),
       acc.out ++ [vmStepRec H now skip cur acc it]⟩ := rfl

theorem vmStepRec_version (H : Bytes → Bytes) (now : Nat) (skip : Bool)
    (cur : List (Bytes × Nat)) (acc : BatchAcc) (it : Bytes × Bytes) :
    (vmStepRec H now skip cur acc it).version = (alookup cur it.1).getD 0 + 1 := rfl

theorem vmFold_char (H : Bytes → Bytes) (now : Nat) (skip : Bool)
    (cur : List (Bytes × Nat)) :
    ∀ (items : List (Bytes × Bytes)) (acc : BatchAcc) (k : Bytes),
      (items.map Prod.fst).count k ≤ 1 →
      (((alookup (items.foldl (vmStep H now skip cur) acc).versions_dict k).getD []).map
          (fun r => r.version) =
        ((alookup acc.versions_dict k).getD []).map (fun r => r.version) ++
          (if k ∈ items.map Prod.fst then [(alookup cur k).getD 0 + 1] else []) ∧
      alookup (items.foldl (vmStep H now skip cur) acc).updates_dict k =
        (if k ∈ items.map Prod.fst then some ((alookup cur k).getD 0 + 1)
         else alookup acc.updates_dict k)) := by
  intro items
  induction items with
  | nil =>
    intro acc k _
    simp
  | cons it rest ih =>
    intro acc k hcnt
    rw [List.foldl_cons]
    by_cases hk : it.1 = k
    · subst hk
      have hrest : it.1 ∉ rest.map Prod.fst := by
        rw [List.map_cons, List.count_cons] at hcnt
        have hbeq : (it.1 == it.1) = true := by simp
        rw [hbeq] at hcnt
        simp only [if_true] at hcnt
        exact List.count_eq_zero.mp (by omega)
      have hcnt0 : (rest.map Prod.fst).count it.1 ≤ 1 :=
        le_of_eq_of_le (List.count_eq_zero.mpr hrest) (by omega)
      obtain ⟨ih1, ih2⟩ := ih (vmStep H now skip cur acc it) it.1 hcnt0
      have hmem : it.1 ∈ (it :: rest).map Prod.fst := by simp
      constructor
      · rw [ih1, if_neg hrest, List.append_nil, if_pos hmem]
        rw [vmStep_eq]
        show ((alookup (appendAt acc.versions_dict it.1 _) it.1).getD []).map _ = _
        rw [alookup_appendAt_self]
        simp [vmStepRec_version]
      · rw [ih2, if_neg hrest, if_pos hmem]
        rw [vmStep_eq]
        show alookup (ainsert acc.updates_dict it.1 _) it.1 = _
        rw [alookup_ainsert_self]
    · have hne : ¬ (it.1 == k) := by simp [hk]
      have hcnt2 : (rest.map Prod.fst).count k ≤ 1 := by
        rw [List.map_cons, List.count_cons] at hcnt
        simp only [hne, if_false] at hcnt
        omega
      obtain ⟨ih1, ih2⟩ := ih (vmStep H now skip cur acc it) k hcnt2
      have hmem : k ∈ (it :: rest).map Prod.fst ↔ k ∈ rest.map Prod.fst := by
        simp only [List.map_cons, List.mem_cons]
        constructor
        · rintro (he | hm)
          · exact absurd he.symm hk
          · exact hm
        · exact Or.inr
      constructor
      · rw [ih1]
        rw [vmStep_eq]
        show ((alookup (appendAt acc.versions_dict it.1 _) k).getD []).map _ ++ _ = _
        rw [alookup_appendAt_ne _ _ _ _ hk]
        simp only [hmem]
      · rw [ih2]
        rw [vmStep_eq]
        show (if k ∈ rest.map Prod.fst then _ else alookup (ainsert acc.updates_dict it.1 _) k) = _
        rw [alookup_ainsert_ne _ _ _ _ hk]
        simp only [hmem]

theorem vmFold_updates_nodup (H : Bytes → Bytes) (now : Nat) (skip : Bool)
    (cur : List (Bytes × Nat)) :
    ∀ (items : List (Bytes × Bytes)) (acc : BatchAcc),
      (acc.updates_dict.map Prod.fst).Nodup →
      ((items.foldl (vmStep H now skip cur) acc).updates_dict.map Prod.fst).Nodup := by
  intro items
  induction items with
  | nil => intro acc h; exact h
  | cons it rest ih =>
    intro acc h
    rw [List.foldl_cons]
    exact ih _ (by rw [vmStep_eq]; exact ainsert_keys_nodup _ _ _ h)

theorem vm_inv_init : VMInv vmInit := by
  intro k
  constructor <;> rfl

theorem vm_inv_batch (H : Bytes → Bytes) (now : Nat) (st : VersionManagerCython)
    (items : List (Bytes × Bytes)) (hinv : VMInv st)
    (hcnt : ∀ k : Bytes, (items.map Prod.fst).count k ≤ 1) :
    VMInv (create_versions_batch H now st items).1 := by
  rw [create_versions_batch]
  by_cases hlen : items.length = 0
  · rw [if_pos hlen]; exact hinv
  · rw [if_neg hlen]
    intro k
    have hchar := vmFold_char H now (decide (items.length > 5000)) st.current_versions
      items ⟨st.versions, [], []⟩ k (hcnt k)
    have hnodup := vmFold_updates_nodup H now (decide (items.length > 5000))
      st.current_versions items ⟨st.versions, [], []⟩ (by simp)
    obtain ⟨hv, hu⟩ := hchar
    have hhist : vmHistory st k = (alookup (⟨st.versions, [], []⟩ : BatchAcc).versions_dict k).getD [] := rfl
    set acc1 := items.foldl
      (vmStep H now (decide (items.length > 5000)) st.current_versions)
      ⟨st.versions, [], []⟩ with hacc
    show (alookup (aupdate st.current_versions acc1.updates_dict) k).getD 0 =
        ((alookup acc1.versions_dict k).getD []).length ∧
      ((alookup acc1.versions_dict k).getD []).map (fun r => r.version) =
        List.range' 1 ((alookup acc1.versions_dict k).getD []).length
    have hlen2 : ((alookup acc1.versions_dict k).getD []).length =
        (vmHistory st k).length + (if k ∈ items.map Prod.fst then 1 else 0) := by
      have := congrArg List.length hv
      rw [List.length_map, List.length_append, List.length_map] at this
      rw [this, hhist]
      by_cases hm : k ∈ items.map Prod.fst <;> simp [hm]
    rw [alookup_aupdate _ _ _ hnodup, hu]
    constructor
    · by_cases hm : k ∈ items.map Prod.fst
      · rw [if_pos hm]
        rw [hlen2, if_pos hm]
        show ((alookup st.current_versions k).getD 0 + 1 : Nat) = (vmHistory st k).length + 1
        rw [(hinv k).1]
      · rw [if_neg hm]
        rw [hlen2, if_neg hm]
        show (alookup st.current_versions k).getD 0 = _
        rw [(hinv k).1]
        rfl
    · rw [hv, hlen2, ← hhist]
      by_cases hm : k ∈ items.map Prod.fst
      · rw [if_pos hm, if_pos hm, (hinv k).2, (hinv k).1]
        rw [List.range'_concat]
        congr 1
        simp [Nat.add_comm]
      · rw [if_neg hm, if_neg hm, List.append_nil, (hinv k).2]
        rfl

theorem count_le_one_of_nodup {l : List Bytes} (h : l.Nodup) (k : Bytes) :
    l.count k ≤ 1 := by
  induction l with
  | nil => exact Nat.zero_le 1
  | cons x xs ih =>
    rw [List.count_cons]
    rw [List.nodup_cons] at h
    by_cases hx : x == k
    · have hxk : x = k := by simpa using hx
      have h0 : xs.count k = 0 := List.count_eq_zero.mpr (by rw [← hxk]; exact h.1)
      simp [hx, h0]
    · simp only [hx, if_false]
      exact Nat.le_trans (Nat.le_of_eq (Nat.add_zero _)) (ih h.2)

/-- Counterexample for C1: one `create_versions_batch` call with the same key
twice assigns version 1 to both records — the loop reads the pre-batch
`current_versions` for every item and only applies `updates_dict` after the
loop — instead of the claimed sequential 1 then 2. -/
theorem c1_counterexample :
    ((create_versions_batch sha256 0 vmInit [([107], [97]), ([107], [98])]).2.map
        (fun r => r.version)) = [1, 1] ∧
      ((create_versions_batch sha256 0 vmInit [([107], [97]), ([107], [98])]).2.map
        (fun r => r.version)) ≠ [1, 2] := by
  decide

/-- C1 (amended): for every write sequence in which each key occurs at most
once per `create_versions_batch` call, the per-key version numbers are exactly
1..N in issue order with no gaps and no repeats, even interleaved with other
keys in shared batches.  Repeated occurrences of a key inside one batch all
receive the same version N+1 (see the counterexample), not sequential
versions. -/
theorem c1_versions_one_to_n (H : Bytes → Bytes)
    (batches : List (Nat × List (Bytes × Bytes)))
    (hcnt : ∀ b ∈ batches, ∀ k : Bytes, (b.2.map Prod.fst).count k ≤ 1) (k : Bytes) :
    (vmHistory (vmRun H batches) k).map (fun r => r.version) =
      List.range' 1 (vmHistory (vmRun H batches) k).length := by
  have main : ∀ (bs : List (Nat × List (Bytes × Bytes))) (st : VersionManagerCython),
      VMInv st → (∀ b ∈ bs, ∀ k2 : Bytes, (b.2.map Prod.fst).count k2 ≤ 1) →
      VMInv (vmRunFrom H st bs) := by
    intro bs
    induction bs with
    | nil => intro st h _; exact h
    | cons b rest ih =>
      intro st h hc
      rw [vmRunFrom, List.foldl_cons]
      exact ih ((create_versions_batch H b.1 st b.2).1)
        (vm_inv_batch H b.1 st b.2 h (hc b (List.mem_cons_self _ _)))
        (fun b2 hb2 => hc b2 (List.mem_cons_of_mem _ hb2))
  exact ((main batches vmInit vm_inv_init hcnt) k).2

/-- Witness for C1: two batches, the first writing keys `k` and `l`, the
second writing `k` again, give `k` the version list 1, 2. -/
theorem c1_versions_one_to_n_witness :
    (∀ b ∈ ([(0, [([107], [49]), ([108], [50])]), (1, [([107], [51])])] :
        List (Nat × List (Bytes × Bytes))),
      ∀ k : Bytes, (b.2.map Prod.fst).count k ≤ 1) ∧
    (vmHistory
        (vmRun sha256 [(0, [([107], [49]), ([108], [50])]), (1, [([107], [51])])])
        [107]).map (fun r => r.version) =
      List.range' 1
        (vmHistory
          (vmRun sha256 [(0, [([107], [49]), ([108], [50])]), (1, [([107], [51])])])
          [107]).length := by
  have hc : ∀ b ∈ ([(0, [([107], [49]), ([108], [50])]), (1, [([107], [51])])] :
      List (Nat × List (Bytes × Bytes))),
      ∀ k : Bytes, (b.2.map Prod.fst).count k ≤ 1 := by
    intro b hb
    rcases List.mem_cons.mp hb with rfl | hb2
    · exact fun k2 => count_le_one_of_nodup (by decide) k2
    · rcases List.mem_cons.mp hb2 with rfl | hb3
      · exact fun k2 => count_le_one_of_nodup (by decide) k2
      · simp at hb3
  exact ⟨hc, c1_versions_one_to_n sha256 _ hc [107]⟩

/-! ## C2: the per-key hash chain -/

theorem chainAux_append (H : Bytes → Bytes) (r : VersionCython) :
    ∀ (t : List VersionCython) (p : VersionCython), chainAux H p t = true →
      r.prev_hash = ((p :: t).getLast?).map (vhash H) →
      chainAux H p (t ++ [r]) = true := by
  intro t
  induction t with
  | nil =>
    intro p _ hr
    rw [List.nil_append, chainAux]
    simp only [List.getLast?_singleton, Option.map_some] at hr
    simp [hr, chainAux]
  | cons q t2 ih =>
    intro p hc hr
    rw [List.cons_append, chainAux]
    rw [chainAux] at hc
    have h1 := (Bool.and_eq_true _ _).mp hc
    rw [List.getLast?_cons_cons] at hr
    simp [h1.1, ih q h1.2 hr]

theorem chainOk_append (H : Bytes → Bytes) (l : List VersionCython) (r : VersionCython)
    (hl : chainOk H l = true) (hr : r.prev_hash = (l.getLast?).map (vhash H)) :
    chainOk H (l ++ [r]) = true := by
  cases l with
  | nil =>
    rw [List.nil_append, chainOk]
    simp only [List.getLast?_nil, Option.map_none] at hr
    simp [hr, chainAux]
  | cons p t =>
    rw [List.cons_append, chainOk]
    rw [chainOk] at hl
    have h1 := (Bool.and_eq_true _ _).mp hl
    simp [h1.1, chainAux_append H r t p h1.2 hr]

theorem vmFold_chain (H : Bytes → Bytes) (now : Nat) (cur : List (Bytes × Nat)) :
    ∀ (items : List (Bytes × Bytes)) (acc : BatchAcc),
      (∀ k : Bytes, chainOk H ((alookup acc.versions_dict k).getD []) = true) →
      ∀ k : Bytes,
        chainOk H
          ((alookup (items.foldl (vmStep H now false cur) acc).versions_dict k).getD []) =
          true := by
  intro items
  induction items with
  | nil => intro acc h k; exact h k
  | cons it rest ih =>
    intro acc h k
    rw [List.foldl_cons]
    refine ih (vmStep H now false cur acc it) ?_ k
    intro k2
    rw [vmStep_eq]
    by_cases hk : it.1 = k2
    · subst hk
      show chainOk H ((alookup (appendAt acc.versions_dict it.1 _) it.1).getD []) = true
      rw [alookup_appendAt_self]
      refine chainOk_append H _ _ (h it.1) ?_
      show (vmStepRec H now false cur acc it).prev_hash = _
      rw [vmStepRec]
      cases hl : alookup acc.versions_dict it.1 with
      | none => simp [hl]
      | some l => simp [hl]
    · show chainOk H ((alookup (appendAt acc.versions_dict it.1 _) k2).getD []) = true
      rw [alookup_appendAt_ne _ _ _ _ hk]
      exact h k2

theorem vmFold_not_mem_key (H : Bytes → Bytes) (now : Nat) (skip : Bool)
    (cur : List (Bytes × Nat)) :
    ∀ (items : List (Bytes × Bytes)) (acc : BatchAcc) (k : Bytes),
      k ∉ items.map Prod.fst →
      alookup (items.foldl (vmStep H now skip cur) acc).versions_dict k =
        alookup acc.versions_dict k := by
  intro items
  induction items with
  | nil => intro acc k _; rfl
  | cons it rest ih =>
    intro acc k hk
    rw [List.foldl_cons]
    have h1 : it.1 ≠ k := by
      intro he
      exact hk (by rw [← he]; simp)
    have h2 : k ∉ rest.map Prod.fst := fun hx => hk (by simp [hx])
    rw [ih _ _ h2, vmStep_eq]
    show alookup (appendAt acc.versions_dict it.1 _) k = _
    rw [alookup_appendAt_ne _ _ _ _ h1]

/-- C2 (amended): for every write sequence whose batches each hold at most
5000 items, every VersionRecord's `prev_hash` equals the digest of the
immediately preceding record for the same key (the empty sentinel for the
first), so recomputing every record's digest and comparing it to the next
record's `prev_hash` succeeds across the full history — for any digest
function, in particular SHA-256.  Batches over 5000 items skip the
`prev_hash` computation (see the counterexample), so the bound is
necessary. -/
theorem c2_hash_chain (H : Bytes → Bytes) (batches : List (Nat × List (Bytes × Bytes)))
    (hlen : ∀ b ∈ batches, b.2.length ≤ 5000) (k : Bytes) :
    chainOk H (vmHistory (vmRun H batches) k) = true := by
  have main : ∀ (bs : List (Nat × List (Bytes × Bytes))) (st : VersionManagerCython),
      (∀ k2 : Bytes, chainOk H (vmHistory st k2) = true) →
      (∀ b ∈ bs, b.2.length ≤ 5000) →
      ∀ k2 : Bytes, chainOk H (vmHistory (vmRunFrom H st bs) k2) = true := by
    intro bs
    induction bs with
    | nil => intro st h _ k2; exact h k2
    | cons b rest ih =>
      intro st h hl k2
      rw [vmRunFrom, List.foldl_cons]
      refine ih _ ?_ (fun b2 hb2 => hl b2 (List.mem_cons_of_mem _ hb2)) k2
      intro k3
      rw [create_versions_batch]
      by_cases h0 : b.2.length = 0
      · rw [if_pos h0]; exact h k3
      · rw [if_neg h0]
        have hskip : decide (b.2.length > 5000) = false := by
          have := hl b (List.mem_cons_self _ _)
          simp
          omega
        show chainOk H ((alookup (b.2.foldl
          (vmStep H b.1 (decide (b.2.length > 5000)) st.current_versions)
          ⟨st.versions, [], []⟩).versions_dict k3).getD []) = true
        rw [hskip]
        exact vmFold_chain H b.1 st.current_versions b.2 ⟨st.versions, [], []⟩
          (fun k4 => h k4) k3
  exact main batches vmInit (fun _ => rfl) hlen k

/-- Witness for C2: two single-item batches to one key chain-verify under
SHA-256. -/
theorem c2_hash_chain_witness :
    (∀ b ∈ ([(1, [([107], [49])]), (2, [([107], [50])])] :
        List (Nat × List (Bytes × Bytes))), b.2.length ≤ 5000) ∧
      chainOk sha256
        (vmHistory (vmRun sha256 [(1, [([107], [49])]), (2, [([107], [50])])]) [107]) =
        true := by
  have hl : ∀ b ∈ ([(1, [([107], [49])]), (2, [([107], [50])])] :
      List (Nat × List (Bytes × Bytes))), b.2.length ≤ 5000 := by
    intro b hb
    rcases List.mem_cons.mp hb with rfl | hb2
    · decide
    · rcases List.mem_cons.mp hb2 with rfl | hb3
      · decide
      · simp at hb3
  exact ⟨hl, c2_hash_chain sha256 _ hl [107]⟩

/-- Counterexample for C2: in a batch of 5001 items (over the 5000-item
threshold of line 113) containing the same key twice, the second record's
`prev_hash` is the empty sentinel even though a preceding record exists, so
end-to-end chain verification fails. -/
theorem c2_counterexample :
    chainOk sha256
      (vmHistory
        (create_versions_batch sha256 0 vmInit
          (([107], [97]) :: ([107], [98]) :: List.replicate 4999 ([108], [99]))).1
        [107]) = false := by
  have hlen : (([107], [97]) :: ([107], [98]) ::
      List.replicate 4999 (([108], [99]) : Bytes × Bytes)).length = 5001 := by
    simp only [List.length_cons, List.length_replicate]
  have hnm : ([107] : Bytes) ∉
      (List.replicate 4999 (([108], [99]) : Bytes × Bytes)).map Prod.fst := by
    intro hmem
    rw [List.map_replicate] at hmem
    have := List.eq_of_mem_replicate hmem
    exact absurd this (by decide)
  rw [create_versions_batch]
  rw [if_neg (by rw [hlen]; omega)]
  simp only [hlen]
  simp only [show decide ((5001 : Nat) > 5000) = true from by decide]
  simp only [vmHistory]
  rw [List.foldl_cons, List.foldl_cons,
    vmFold_not_mem_key sha256 0 true vmInit.current_versions _ _ [107] hnm]
  decide

/-! ## C3 and C10: the size budget of the write buffer -/

theorem insertFresh_max_size (st : SkipListCython) (k v : Bytes) (ver : Int)
    (ts nl : Nat) (upd : List Nat) :
    (insertFresh st k v ver ts nl upd).max_size = st.max_size := rfl

theorem insertItem_max_size (st : SkipListCython) (k v : Bytes) (ver : Int)
    (ts nl : Nat) : (insertItem st k v ver ts nl).max_size = st.max_size := by
  rw [insertItem]
  split
  · split
    · rfl
    · rfl
  · rfl

theorem insertItem_size_le (st : SkipListCython) (k v : Bytes) (ver : Int)
    (ts nl : Nat) (h : st.size + (k.length + v.length + 16) ≤ st.max_size) :
    (insertItem st k v ver ts nl).size ≤ st.max_size := by
  rw [insertItem]
  split
  · split
    · show st.size - _ - 16 + (v.length + 16) ≤ st.max_size
      omega
    · show st.size + (k.length + v.length + 16) ≤ st.max_size
      omega
  · show st.size + (k.length + v.length + 16) ≤ st.max_size
    omega

theorem levelExtend_size (st : SkipListCython) (nls : List Nat) :
    (levelExtend st nls).size = st.size := by
  rw [levelExtend]
  split <;> rfl

theorem levelExtend_max_size (st : SkipListCython) (nls : List Nat) :
    (levelExtend st nls).max_size = st.max_size := by
  rw [levelExtend]
  split <;> rfl

theorem applyItems_max_size (ts : Nat) :
    ∀ (l : List ((Bytes × Bytes × Int) × Nat)) (st : SkipListCython),
      (applyItems ts st l).max_size = st.max_size := by
  intro l
  induction l with
  | nil => intro st; rfl
  | cons p rest ih =>
    intro st
    rw [applyItems, List.foldl_cons]
    rw [show rest.foldl (fun s q => insertItem s q.1.1 q.1.2.1 q.1.2.2 ts q.2)
        (insertItem st p.1.1 p.1.2.1 p.1.2.2 ts p.2) =
      applyItems ts (insertItem st p.1.1 p.1.2.1 p.1.2.2 ts p.2) rest from rfl]
    rw [ih, insertItem_max_size]

theorem put_batch_loop_char (ts : Nat) :
    ∀ (l : List ((Bytes × Bytes × Int) × Nat)) (st : SkipListCython) (cnt : Nat),
      ∃ n : Nat, n ≤ l.length ∧
        put_batch_loop ts st l cnt = (applyItems ts st (l.take n), cnt + n) ∧
        (∀ e, n < l.length → l[n]? = some e →
          (applyItems ts st (l.take n)).size + (e.1.1.length + e.1.2.1.length + 16) >
            st.max_size) := by
  intro l
  induction l with
  | nil =>
    intro st cnt
    exact ⟨0, Nat.le_refl 0, rfl, fun e he _ => absurd he (by simp)⟩
  | cons p rest ih =>
    intro st cnt
    rw [put_batch_loop]
    by_cases hover : st.size + (p.1.1.length + p.1.2.1.length + 16) > st.max_size
    · refine ⟨0, Nat.zero_le _, ?_, ?_⟩
      · rw [if_pos hover]
        rfl
      · intro e _ he
        simp only [List.getElem?_cons_zero] at he
        cases he
        simpa [applyItems] using hover
    · rw [if_neg hover]
      obtain ⟨n, hn, heq, hov⟩ := ih (insertItem st p.1.1 p.1.2.1 p.1.2.2 ts p.2) (cnt + 1)
      refine ⟨n + 1, by simpa using Nat.succ_le_succ hn, ?_, ?_⟩
      · rw [heq]
        have hc : cnt + 1 + n = cnt + (n + 1) := by omega
        rw [List.take_succ_cons, hc]
        rfl
      · intro e hlt he
        have h1 : rest[n]? = some e := by simpa using he
        have h2 : n < rest.length := by simpa using hlt
        have := hov e h2 h1
        rw [insertItem_max_size] at this
        rw [List.take_succ_cons]
        show (applyItems ts (insertItem st p.1.1 p.1.2.1 p.1.2.2 ts p.2) (rest.take n)).size
            + _ > _
        exact this

theorem put_batch_loop_size (ts : Nat) :
    ∀ (l : List ((Bytes × Bytes × Int) × Nat)) (st : SkipListCython) (cnt : Nat),
      st.size ≤ st.max_size →
      (put_batch_loop ts st l cnt).1.size ≤ st.max_size ∧
      (put_batch_loop ts st l cnt).1.max_size = st.max_size := by
  intro l
  induction l with
  | nil => intro st cnt h; exact ⟨h, rfl⟩
  | cons p rest ih =>
    intro st cnt h
    rw [put_batch_loop]
    by_cases hover : st.size + (p.1.1.length + p.1.2.1.length + 16) > st.max_size
    · rw [if_pos hover]
      exact ⟨h, rfl⟩
    · rw [if_neg hover]
      have hle : (insertItem st p.1.1 p.1.2.1 p.1.2.2 ts p.2).size ≤ st.max_size :=
        insertItem_size_le st _ _ _ _ _ (by omega)
      have hms := insertItem_max_size st p.1.1 p.1.2.1 p.1.2.2 ts p.2
      have := ih (insertItem st p.1.1 p.1.2.1 p.1.2.2 ts p.2) (cnt + 1) (by rw [hms]; exact hle)
      rw [hms] at this
      exact this

/-- C3: `put_batch` applies entries in input order under one size-budget
check — the returned state is exactly the fold of the first `n` admitted
entries over the level-extended state; the first entry whose full accounted
size (key length + value length + 16) would push the buffer over `max_size`
stops the batch; the return value is exactly the number of entries applied;
and buffer byte usage never exceeds the ceiling after the call. -/
theorem c3_put_batch_budget (st : SkipListCython) (ts : Nat)
    (items : List (Bytes × Bytes × Int)) (node_levels : List Nat)
    (hsz : st.size ≤ st.max_size) (hlen : node_levels.length = items.length)
    (hlev : 1 ≤ st.level) :
    ∃ n : Nat,
      put_batch st ts items node_levels =
        (applyItems ts (levelExtend st node_levels) ((items.zip node_levels).take n), n) ∧
      n ≤ items.length ∧
      (put_batch st ts items node_levels).1.size ≤ st.max_size ∧
      (∀ e, n < items.length → (items.zip node_levels)[n]? = some e →
        (put_batch st ts items node_levels).1.size +
          (e.1.1.length + e.1.2.1.length + 16) > st.max_size) := by
  by_cases h0 : items.length = 0
  · have hitems : items = [] := List.length_eq_zero.mp h0
    have hnl : node_levels = [] := List.length_eq_zero.mp (by omega)
    subst hitems hnl
    have hif : put_batch st ts [] [] = (st, 0) := by
      rw [put_batch]
      rw [if_pos (show ([] : List (Bytes × Bytes × Int)).length = 0 from rfl)]
    refine ⟨0, ?_, Nat.le_refl 0, ?_, ?_⟩
    · rw [hif, levelExtend]
      rw [if_neg (by simp [List.foldl]; omega)]
      rfl
    · rw [hif]
      exact hsz
    · intro e he _
      exact absurd he (by simp)
  · rw [put_batch, if_neg h0]
    have hzl : (items.zip node_levels).length = items.length := by
      rw [List.length_zip, hlen, Nat.min_self]
    obtain ⟨n, hn, heq, hov⟩ := put_batch_loop_char ts (items.zip node_levels)
      (levelExtend st node_levels) 0
    have hsz1 : (levelExtend st node_levels).size ≤ (levelExtend st node_levels).max_size := by
      rw [levelExtend_size, levelExtend_max_size]; exact hsz
    have hbound := put_batch_loop_size ts (items.zip node_levels)
      (levelExtend st node_levels) 0 hsz1
    refine ⟨n, ?_, ?_, ?_, ?_⟩
    · rw [heq, Nat.zero_add]
    · omega
    · rw [levelExtend_max_size] at hbound
      exact hbound.1
    · intro e hlt he
      have := hov e (by omega) he
      rw [heq]
      rw [levelExtend_max_size] at this
      simpa using this

/-- Witness for C3: with a 40-byte ceiling, a batch whose second entry would
overflow applies exactly the admitted prefix, reports its count, and leaves
the buffer at or under the ceiling. -/
theorem c3_put_batch_budget_witness :
    (slInit 16 40).size ≤ (slInit 16 40).max_size ∧
    ([1, 1] : List Nat).length =
      ([([97], [49], 1), ([98], List.replicate 10 48, 2)] : List (Bytes × Bytes × Int)).length ∧
    1 ≤ (slInit 16 40).level ∧
    (∃ n : Nat,
      put_batch (slInit 16 40) 5 [([97], [49], 1), ([98], List.replicate 10 48, 2)] [1, 1] =
        (applyItems 5 (levelExtend (slInit 16 40) [1, 1])
          (([([97], [49], 1), ([98], List.replicate 10 48, 2)].zip [1, 1]).take n), n) ∧
      n ≤ ([([97], [49], 1), ([98], List.replicate 10 48, 2)] : List (Bytes × Bytes × Int)).length ∧
      (put_batch (slInit 16 40) 5 [([97], [49], 1), ([98], List.replicate 10 48, 2)] [1, 1]).1.size ≤
        (slInit 16 40).max_size ∧
      (∀ e, n < ([([97], [49], 1), ([98], List.replicate 10 48, 2)] : List (Bytes × Bytes × Int)).length →
        (([([97], [49], 1), ([98], List.replicate 10 48, 2)] :
          List (Bytes × Bytes × Int)).zip [1, 1])[n]? = some e →
        (put_batch (slInit 16 40) 5 [([97], [49], 1), ([98], List.replicate 10 48, 2)] [1, 1]).1.size +
          (e.1.1.length + e.1.2.1.length + 16) > (slInit 16 40).max_size)) :=
  ⟨by decide, by decide, by decide,
   c3_put_batch_budget (slInit 16 40) 5 _ _ (by decide) (by decide) (by decide)⟩

/-- C10: the admission check of `put_batch` uses the entry's full accounted
size `key_len + value_len + 16` for every entry.  The hypotheses exhibit the
"even when" case of the claim: the key is already present in the buffer
(`hmem`, `hkey`) and replacing its value would leave the buffer under the
ceiling (`hnet`), yet because current usage plus the full size exceeds the
ceiling (`hover`) the batch stops at that entry with nothing applied — the
conclusion does not depend on the update-specific hypotheses, which is the
point: the check never consults them. -/
theorem c10_full_size_admission (st : SkipListCython) (ts : Nat) (k v : Bytes)
    (ver : Int) (nl : Nat) (a : Nat)
    (hmem : a ∈ traversal st) (hkey : keyAt st.mem a = k)
    (hnet : st.size - ((valueAt st.mem a).length + 16) + (v.length + 16) ≤ st.max_size)
    (hover : st.size + (k.length + v.length + 16) > st.max_size) :
    put_batch st ts [(k, v, ver)] [nl] = (levelExtend st [nl], 0) := by
  rw [put_batch, if_neg (by simp)]
  show put_batch_loop ts (levelExtend st [nl]) [((k, v, ver), nl)] 0 = _
  rw [put_batch_loop]
  rw [if_pos (by rw [levelExtend_size, levelExtend_max_size]; exact hover)]

/-- Witness for C10: a buffer holding key `b"a"` with a 10-byte value under a
45-byte ceiling; updating it to a 12-byte value would net-fit (29 of 45
bytes), but the full-size check sees 27 + 29 > 45 and applies nothing. -/
theorem c10_full_size_admission_witness :
    (1 ∈ traversal (put_batch (slInit 4 45) 5 [([97], List.replicate 10 49, 1)] [1]).1 ∧
     keyAt (put_batch (slInit 4 45) 5 [([97], List.replicate 10 49, 1)] [1]).1.mem 1 = [97] ∧
     (put_batch (slInit 4 45) 5 [([97], List.replicate 10 49, 1)] [1]).1.size -
        ((valueAt (put_batch (slInit 4 45) 5 [([97], List.replicate 10 49, 1)] [1]).1.mem 1).length + 16) +
        ((List.replicate 12 50 : Bytes).length + 16) ≤
       (put_batch (slInit 4 45) 5 [([97], List.replicate 10 49, 1)] [1]).1.max_size ∧
     (put_batch (slInit 4 45) 5 [([97], List.replicate 10 49, 1)] [1]).1.size +
        (([97] : Bytes).length + (List.replicate 12 50 : Bytes).length + 16) >
       (put_batch (slInit 4 45) 5 [([97], List.replicate 10 49, 1)] [1]).1.max_size) ∧
    put_batch (put_batch (slInit 4 45) 5 [([97], List.replicate 10 49, 1)] [1]).1 6
        [([97], List.replicate 12 50, 2)] [1] =
      (levelExtend (put_batch (slInit 4 45) 5 [([97], List.replicate 10 49, 1)] [1]).1 [1], 0) :=
  ⟨⟨by decide, by decide, by decide, by decide⟩,
   c10_full_size_admission _ 6 [97] (List.replicate 12 50) 2 1 1
     (by decide) (by decide) (by decide) (by decide)⟩

/-- FIPS 180-4 test vector: the digest of `"abc"`. -/
theorem sha256_abc :
    sha256 [97, 98, 99] =
      [0xba, 0x78, 0x16, 0xbf, 0x8f, 0x01, 0xcf, 0xea,
       0x41, 0x41, 0x40, 0xde, 0x5d, 0xae, 0x22, 0x23,
       0xb0, 0x03, 0x61, 0xa3, 0x96, 0x17, 0x7a, 0x9c,
       0xb4, 0x10, 0xff, 0x61, 0xf2, 0x00, 0x15, 0xad] := by
  decide

end AmDb
namespace AmDb

theorem chain_congr {mem mem2 : List SkipListNode} {i : Nat} :
    ∀ {a : Nat} {l : List Nat}, IsChain mem i a l →
      (∀ b ∈ a :: l, fwd mem2 b i = fwd mem b i) → IsChain mem2 i a l := by
  intro a l h
  induction h with
  | nil hf =>
    intro hc
    exact IsChain.nil (by rw [hc _ (by simp)]; exact hf)
  | cons hf _ ih =>
    intro hc
    refine IsChain.cons (by rw [hc _ (by simp)]; exact hf) (ih ?_)
    intro b hb
    exact hc b (List.mem_cons_of_mem _ hb)

theorem chain_suffix {mem : List SkipListNode} {i : Nat} :
    ∀ (l1 : List Nat) {a b : Nat} {l2 : List Nat},
      IsChain mem i a (l1 ++ b :: l2) → IsChain mem i b l2 := by
  intro l1
  induction l1 with
  | nil =>
    intro a b l2 h
    cases h with
    | cons _ h2 => exact h2
  | cons x t ih =>
    intro a b l2 h
    cases h with
    | cons _ h2 => exact ih h2

theorem walkChain_eq {mem : List SkipListNode} {i : Nat} :
    ∀ (l : List Nat) (a : Nat) (fuel : Nat), IsChain mem i a l → l.length ≤ fuel →
      walkChain mem i fuel a = l := by
  intro l
  induction l with
  | nil =>
    intro a fuel h _
    cases h with
    | nil hf =>
      cases fuel with
      | zero => rfl
      | succ f => rw [walkChain, hf]
  | cons b l2 ih =>
    intro a fuel h hf
    cases h with
    | cons hfw h2 =>
      cases fuel with
      | zero => exact absurd hf (by simp)
      | succ f =>
        have hstep : walkChain mem i (f + 1) a = b :: walkChain mem i f b := by
          rw [walkChain, hfw]
        rw [hstep, ih b f h2 (by simpa using hf)]

/-! Advance specification -/

theorem advance_spec {mem : List SkipListNode} {i : Nat} {key : Bytes} :
    ∀ (l : List Nat) (a : Nat) (fuel : Nat), IsChain mem i a l → l.length ≤ fuel →
      advance mem i key fuel a = (l.takeWhile (pLt mem key)).getLastD a ∧
      IsChain mem i (advance mem i key fuel a) (l.dropWhile (pLt mem key)) := by
  intro l
  induction l with
  | nil =>
    intro a fuel h _
    cases h with
    | nil hf =>
      cases fuel with
      | zero => exact ⟨rfl, IsChain.nil hf⟩
      | succ f =>
        have : advance mem i key (f + 1) a = a := by rw [advance, hf]
        rw [this]
        exact ⟨rfl, IsChain.nil hf⟩
  | cons b l2 ih =>
    intro a fuel h hlen
    cases h with
    | cons hfw h2 =>
      cases fuel with
      | zero => exact absurd hlen (by simp)
      | succ f =>
        by_cases hp : pLt mem key b
        · have hcmp : srcCmp (keyAt mem b) key < 0 := by
            rw [srcCmp_lt_iff]
            rw [pLt, decide_eq_true_eq] at hp
            exact hp
          have hstep : advance mem i key (f + 1) a = advance mem i key f b := by
            rw [advance, hfw]
            show (if srcCmp (keyAt mem b) key < 0 then advance mem i key f b else a) = _
            rw [if_pos hcmp]
          obtain ⟨ih1, ih2⟩ := ih b f h2 (by simpa using hlen)
          rw [hstep, List.takeWhile_cons_of_pos hp, List.dropWhile_cons_of_pos hp]
          rw [List.getLastD_cons]
          exact ⟨ih1, ih2⟩
        · have hcmp : ¬ srcCmp (keyAt mem b) key < 0 := by
            rw [srcCmp_lt_iff]
            rw [pLt, decide_eq_true_eq] at hp
            exact hp
          have hstep : advance mem i key (f + 1) a = a := by
            rw [advance, hfw]
            show (if srcCmp (keyAt mem b) key < 0 then advance mem i key f b else a) = _
            rw [if_neg hcmp]
          rw [hstep, List.takeWhile_cons_of_neg hp, List.dropWhile_cons_of_neg hp]
          exact ⟨rfl, IsChain.cons hfw h2⟩

end AmDb
namespace AmDb

/-! takeWhile and dropWhile over splits -/

theorem takeWhile_all_append (p : α → Bool) :
    ∀ (l1 l2 : List α), (∀ x ∈ l1, p x = true) →
      (l1 ++ l2).takeWhile p = l1 ++ l2.takeWhile p := by
  intro l1
  induction l1 with
  | nil => intro l2 _; rfl
  | cons x t ih =>
    intro l2 h
    rw [List.cons_append, List.takeWhile_cons_of_pos (h x (by simp)), ih l2
      (fun y hy => h y (by simp [hy])), List.cons_append]

theorem dropWhile_all_append (p : α → Bool) :
    ∀ (l1 l2 : List α), (∀ x ∈ l1, p x = true) →
      (l1 ++ l2).dropWhile p = l2.dropWhile p := by
  intro l1
  induction l1 with
  | nil => intro l2 _; rfl
  | cons x t ih =>
    intro l2 h
    rw [List.cons_append, List.dropWhile_cons_of_pos (h x (by simp)), ih l2
      (fun y hy => h y (by simp [hy]))]

theorem getLastD_append (l1 l2 : List α) (d : α) :
    (l1 ++ l2).getLastD d = l2.getLastD (l1.getLastD d) := by
  induction l1 generalizing d with
  | nil => rfl
  | cons x t ih => rw [List.cons_append, List.getLastD_cons, ih, List.getLastD_cons]

theorem getLastD_mem (l : List α) (d : α) (h : l ≠ []) : l.getLastD d ∈ l := by
  induction l generalizing d with
  | nil => exact absurd rfl h
  | cons x t ih =>
    rw [List.getLastD_cons]
    cases ht : t with
    | nil => simp [List.getLastD]
    | cons y s =>
      rw [← ht]
      exact List.mem_cons_of_mem x (ih x (by rw [ht]; simp))

/-! The search from a valid mid-chain start finds the global last-below node -/

theorem advance_mid {st : SkipListCython} {spine : List Nat} (W : SLWF st spine)
    (key : Bytes) (i : Nat) (hi : i < st.max_level) (a : Nat)
    (ha : a = 0 ∨ (a ∈ spine ∧ pLt st.mem key a = true ∧ i < levelAt st.mem a))
    (fuel : Nat) (hfuel : spine.length ≤ fuel) :
    advance st.mem i key fuel a =
      ((levFilter st.mem i spine).takeWhile (pLt st.mem key)).getLastD 0 ∧
    IsChain st.mem i (advance st.mem i key fuel a)
      ((levFilter st.mem i spine).dropWhile (pLt st.mem key)) := by
  have hflen : (levFilter st.mem i spine).length ≤ spine.length :=
    List.length_filter_le _ _
  rcases ha with rfl | ⟨hmem, hp, hlev⟩
  · exact advance_spec (levFilter st.mem i spine) 0 fuel (W.chains i hi)
      (le_trans hflen hfuel)
  · have haf : a ∈ levFilter st.mem i spine := by
      rw [levFilter, List.mem_filter]
      exact ⟨hmem, by simpa using hlev⟩
    obtain ⟨l1, l2, hsplit⟩ := List.append_of_mem haf
    have hchain : IsChain st.mem i a l2 := by
      have := W.chains i hi
      rw [hsplit] at this
      exact chain_suffix l1 this
    have hl2 : l2.length ≤ fuel := by
      have := congrArg List.length hsplit
      simp at this
      omega
    obtain ⟨h1, h2⟩ := advance_spec l2 a fuel hchain hl2
    -- the filtered chain is sorted, so everything before `a` also satisfies p
    have hsorted : ((levFilter st.mem i spine).map (keyAt st.mem)).Pairwise bytesLt := by
      refine List.Pairwise.sublist ?_ W.sorted
      exact List.Sublist.map _ (List.filter_sublist spine)
    have hall : ∀ x ∈ l1, pLt st.mem key x = true := by
      intro x hx
      have hpair : bytesLt (keyAt st.mem x) (keyAt st.mem a) := by
        rw [List.pairwise_map] at hsorted
        rw [hsplit] at hsorted
        have := (List.pairwise_append.mp hsorted).2.2
        exact this x hx a (by simp)
      rw [pLt, decide_eq_true_eq] at hp ⊢
      exact byteCmp_lt_trans hpair hp
    constructor
    · rw [h1, hsplit, takeWhile_all_append _ l1 _ hall,
        List.takeWhile_cons_of_pos hp, getLastD_append, List.getLastD_cons]
    · rw [h1]
      have hdrop : (levFilter st.mem i spine).dropWhile (pLt st.mem key) =
          l2.dropWhile (pLt st.mem key) := by
        rw [hsplit, show l1 ++ a :: l2 = (l1 ++ [a]) ++ l2 by simp,
          dropWhile_all_append]
        intro x hx
        rcases List.mem_append.mp hx with hx1 | hx2
        · exact hall x hx1
        · rw [List.mem_singleton.mp hx2]; exact hp
      rw [hdrop, ← h1]
      exact h2

end AmDb
namespace AmDb

theorem lastBelow_prop {st : SkipListCython} {spine : List Nat} (W : SLWF st spine)
    (key : Bytes) (i : Nat) :
    ((levFilter st.mem i spine).takeWhile (pLt st.mem key)).getLastD 0 = 0 ∨
      (((levFilter st.mem i spine).takeWhile (pLt st.mem key)).getLastD 0 ∈ spine ∧
       pLt st.mem key (((levFilter st.mem i spine).takeWhile (pLt st.mem key)).getLastD 0) =
         true ∧
       i < levelAt st.mem
         (((levFilter st.mem i spine).takeWhile (pLt st.mem key)).getLastD 0)) := by
  cases he : (levFilter st.mem i spine).takeWhile (pLt st.mem key) with
  | nil => exact Or.inl rfl
  | cons x t =>
    right
    have hmem0 : (x :: t).getLastD 0 ∈ x :: t := getLastD_mem _ 0 (by simp)
    have hmemtw : (x :: t).getLastD 0 ∈
        (levFilter st.mem i spine).takeWhile (pLt st.mem key) := by rw [he]; exact hmem0
    have hp : pLt st.mem key ((x :: t).getLastD 0) = true :=
      List.mem_takeWhile_imp hmemtw
    have hmemf : (x :: t).getLastD 0 ∈ levFilter st.mem i spine :=
      (List.takeWhile_sublist _).subset hmemtw
    rw [levFilter, List.mem_filter] at hmemf
    exact ⟨hmemf.1, hp, by simpa using hmemf.2⟩

theorem searchFrom_spec {st : SkipListCython} {spine : List Nat} (W : SLWF st spine)
    (key : Bytes) (fuel : Nat) (hfuel : spine.length ≤ fuel) :
    ∀ (j : Nat) (a : Nat), j ≤ st.level →
      (a = 0 ∨ (a ∈ spine ∧ pLt st.mem key a = true ∧ j ≤ levelAt st.mem a)) →
      (searchFrom st.mem key fuel a j).length = j ∧
      ∀ i, i < j → (searchFrom st.mem key fuel a j).getD i 0 =
        ((levFilter st.mem i spine).takeWhile (pLt st.mem key)).getLastD 0 := by
  intro j
  induction j with
  | zero =>
    intro a _ _
    exact ⟨rfl, fun i hi => absurd hi (by omega)⟩
  | succ j ih =>
    intro a hj ha
    have hjm : j < st.max_level := by
      have := W.list_level_le
      omega
    have ha2 : a = 0 ∨ (a ∈ spine ∧ pLt st.mem key a = true ∧ j < levelAt st.mem a) := by
      rcases ha with rfl | ⟨h1, h2, h3⟩
      · exact Or.inl rfl
      · exact Or.inr ⟨h1, h2, by omega⟩
    obtain ⟨hadv, _⟩ := advance_mid W key j hjm a ha2 fuel hfuel
    have hq : advance st.mem j key fuel a = 0 ∨
        (advance st.mem j key fuel a ∈ spine ∧
         pLt st.mem key (advance st.mem j key fuel a) = true ∧
         j ≤ levelAt st.mem (advance st.mem j key fuel a)) := by
      rw [hadv]
      rcases lastBelow_prop W key j with h | ⟨h1, h2, h3⟩
      · exact Or.inl h
      · exact Or.inr ⟨h1, h2, by omega⟩
    obtain ⟨ihlen, ihget⟩ := ih (advance st.mem j key fuel a) (by omega) hq
    rw [searchFrom]
    constructor
    · rw [List.length_append, ihlen]
      rfl
    · intro i hij
      by_cases hi : i < j
      · rw [List.getD_eq_getElem?_getD, List.getElem?_append_left (by rw [ihlen]; omega),
          ← List.getD_eq_getElem?_getD]
        exact ihget i hi
      · have hieq : i = j := by omega
        subst hieq
        rw [List.getD_eq_getElem?_getD, List.getElem?_append_right (by rw [ihlen]),
          ihlen]
        simp [hadv]

end AmDb
namespace AmDb

/-! Heap mutation lemmas -/

theorem setValueAt_length (mem : List SkipListNode) (a : Nat) (v : Bytes) (ver : Int)
    (ts : Nat) : (setValueAt mem a v ver ts).length = mem.length := by
  rw [setValueAt]
  cases mem[a]? <;> simp

theorem fwd_setValueAt (mem : List SkipListNode) (a : Nat) (v : Bytes) (ver : Int)
    (ts : Nat) (b i : Nat) : fwd (setValueAt mem a v ver ts) b i = fwd mem b i := by
  rw [setValueAt]
  cases hm : mem[a]? with
  | none => rfl
  | some n =>
    rw [fwd, fwd]
    by_cases hb : b = a
    · subst hb
      rw [List.getElem?_set_self (by exact (List.getElem?_eq_some_iff.mp hm).1), hm]
    · rw [List.getElem?_set_ne (fun he => hb he.symm)]

theorem keyAt_setValueAt (mem : List SkipListNode) (a : Nat) (v : Bytes) (ver : Int)
    (ts : Nat) (b : Nat) : keyAt (setValueAt mem a v ver ts) b = keyAt mem b := by
  rw [setValueAt]
  cases hm : mem[a]? with
  | none => rfl
  | some n =>
    rw [keyAt, keyAt]
    by_cases hb : b = a
    · subst hb
      rw [List.getElem?_set_self (by exact (List.getElem?_eq_some_iff.mp hm).1), hm]
      rfl
    · rw [List.getElem?_set_ne (fun he => hb he.symm)]

theorem levelAt_setValueAt (mem : List SkipListNode) (a : Nat) (v : Bytes) (ver : Int)
    (ts : Nat) (b : Nat) : levelAt (setValueAt mem a v ver ts) b = levelAt mem b := by
  rw [setValueAt]
  cases hm : mem[a]? with
  | none => rfl
  | some n =>
    rw [levelAt, levelAt]
    by_cases hb : b = a
    · subst hb
      rw [List.getElem?_set_self (by exact (List.getElem?_eq_some_iff.mp hm).1), hm]
      rfl
    · rw [List.getElem?_set_ne (fun he => hb he.symm)]

theorem fwdLen_setValueAt (mem : List SkipListNode) (a : Nat) (v : Bytes) (ver : Int)
    (ts : Nat) (b : Nat) :
    ((setValueAt mem a v ver ts)[b]?.map (fun n => n.forward.length)).getD 0 =
      (mem[b]?.map (fun n => n.forward.length)).getD 0 := by
  rw [setValueAt]
  cases hm : mem[a]? with
  | none => rfl
  | some n =>
    by_cases hb : b = a
    · subst hb
      rw [List.getElem?_set_self (by exact (List.getElem?_eq_some_iff.mp hm).1), hm]
      rfl
    · rw [List.getElem?_set_ne (fun he => hb he.symm)]

theorem valueAt_setValueAt_self (mem : List SkipListNode) (a : Nat) (v : Bytes)
    (ver : Int) (ts : Nat) (n : SkipListNode) (hm : mem[a]? = some n) :
    valueAt (setValueAt mem a v ver ts) a = v := by
  rw [setValueAt, hm, valueAt,
    List.getElem?_set_self (by exact (List.getElem?_eq_some_iff.mp hm).1)]
  rfl

end AmDb
namespace AmDb

theorem setFwdAt_length (m : List SkipListNode) (a i t : Nat) :
    (setFwdAt m a i t).length = m.length := by
  rw [setFwdAt]
  cases m[a]? <;> simp

theorem setFwdAt_keyAt (m : List SkipListNode) (a i t b : Nat) :
    keyAt (setFwdAt m a i t) b = keyAt m b := by
  rw [setFwdAt]
  cases hm : m[a]? with
  | none => rfl
  | some n =>
    rw [keyAt, keyAt]
    by_cases hb : b = a
    · subst hb
      rw [List.getElem?_set_self (by exact (List.getElem?_eq_some_iff.mp hm).1), hm]
      rfl
    · rw [List.getElem?_set_ne (fun he => hb he.symm)]

theorem setFwdAt_valueAt (m : List SkipListNode) (a i t b : Nat) :
    valueAt (setFwdAt m a i t) b = valueAt m b := by
  rw [setFwdAt]
  cases hm : m[a]? with
  | none => rfl
  | some n =>
    rw [valueAt, valueAt]
    by_cases hb : b = a
    · subst hb
      rw [List.getElem?_set_self (by exact (List.getElem?_eq_some_iff.mp hm).1), hm]
      rfl
    · rw [List.getElem?_set_ne (fun he => hb he.symm)]

theorem setFwdAt_levelAt (m : List SkipListNode) (a i t b : Nat) :
    levelAt (setFwdAt m a i t) b = levelAt m b := by
  rw [setFwdAt]
  cases hm : m[a]? with
  | none => rfl
  | some n =>
    rw [levelAt, levelAt]
    by_cases hb : b = a
    · subst hb
      rw [List.getElem?_set_self (by exact (List.getElem?_eq_some_iff.mp hm).1), hm]
      rfl
    · rw [List.getElem?_set_ne (fun he => hb he.symm)]

theorem setFwdAt_fwdLen (m : List SkipListNode) (a i t b : Nat) :
    ((setFwdAt m a i t)[b]?.map (fun n => n.forward.length)).getD 0 =
      (m[b]?.map (fun n => n.forward.length)).getD 0 := by
  rw [setFwdAt]
  cases hm : m[a]? with
  | none => rfl
  | some n =>
    by_cases hb : b = a
    · subst hb
      rw [List.getElem?_set_self (by exact (List.getElem?_eq_some_iff.mp hm).1), hm]
      simp
    · rw [List.getElem?_set_ne (fun he => hb he.symm)]

theorem setFwdAt_fwd_self (m : List SkipListNode) (a i t : Nat) (n : SkipListNode)
    (hm : m[a]? = some n) (hi : i < n.forward.length) :
    fwd (setFwdAt m a i t) a i = some t := by
  rw [setFwdAt, hm, fwd,
    List.getElem?_set_self (by exact (List.getElem?_eq_some_iff.mp hm).1)]
  show (match (n.forward.set i (some t))[i]? with
    | some o => o
    | none => none) = some t
  rw [List.getElem?_set_self (by simpa using hi)]

theorem setFwdAt_fwd_ne_addr (m : List SkipListNode) (a i t b i2 : Nat) (h : b ≠ a) :
    fwd (setFwdAt m a i t) b i2 = fwd m b i2 := by
  rw [setFwdAt]
  cases hm : m[a]? with
  | none => rfl
  | some n =>
    rw [fwd, fwd, List.getElem?_set_ne (fun he => h he.symm)]

theorem setFwdAt_fwd_ne_slot (m : List SkipListNode) (a i t b i2 : Nat) (h : i2 ≠ i) :
    fwd (setFwdAt m a i t) b i2 = fwd m b i2 := by
  rw [setFwdAt]
  cases hm : m[a]? with
  | none => rfl
  | some n =>
    by_cases hb : b = a
    · subst hb
      rw [fwd, fwd, hm,
        List.getElem?_set_self (by exact (List.getElem?_eq_some_iff.mp hm).1)]
      show (match (n.forward.set i (some t))[i2]? with
        | some o => o
        | none => none) = _
      rw [List.getElem?_set_ne (fun he => h he.symm)]
    · rw [fwd, fwd, List.getElem?_set_ne (fun he => hb he.symm)]

end AmDb
namespace AmDb

/-! Append lemmas -/

theorem append_getElem_lt (mem : List SkipListNode) (node : SkipListNode) (b : Nat)
    (h : b < mem.length) : (mem ++ [node])[b]? = mem[b]? := by
  rw [List.getElem?_append_left h]

theorem append_fwd_lt (mem : List SkipListNode) (node : SkipListNode) (b i : Nat)
    (h : b < mem.length) : fwd (mem ++ [node]) b i = fwd mem b i := by
  rw [fwd, fwd, append_getElem_lt mem node b h]

theorem append_keyAt_lt (mem : List SkipListNode) (node : SkipListNode) (b : Nat)
    (h : b < mem.length) : keyAt (mem ++ [node]) b = keyAt mem b := by
  rw [keyAt, keyAt, append_getElem_lt mem node b h]

theorem append_valueAt_lt (mem : List SkipListNode) (node : SkipListNode) (b : Nat)
    (h : b < mem.length) : valueAt (mem ++ [node]) b = valueAt mem b := by
  rw [valueAt, valueAt, append_getElem_lt mem node b h]

theorem append_levelAt_lt (mem : List SkipListNode) (node : SkipListNode) (b : Nat)
    (h : b < mem.length) : levelAt (mem ++ [node]) b = levelAt mem b := by
  rw [levelAt, levelAt, append_getElem_lt mem node b h]

theorem append_getElem_self (mem : List SkipListNode) (node : SkipListNode) :
    (mem ++ [node])[mem.length]? = some node := by
  rw [List.getElem?_append_right (Nat.le_refl _)]
  simp

/-! linkNew lemmas -/

theorem linkNew_length (upd : List Nat) (w : Nat) :
    ∀ (j : Nat) (m : List SkipListNode), (linkNew m upd w j).length = m.length := by
  intro j
  induction j with
  | zero => intro m; rfl
  | succ j ih =>
    intro m
    rw [linkNew, setFwdAt_length, ih]

theorem linkNew_keyAt (upd : List Nat) (w : Nat) :
    ∀ (j : Nat) (m : List SkipListNode) (b : Nat),
      keyAt (linkNew m upd w j) b = keyAt m b := by
  intro j
  induction j with
  | zero => intro m b; rfl
  | succ j ih =>
    intro m b
    rw [linkNew, setFwdAt_keyAt, ih]

theorem linkNew_valueAt (upd : List Nat) (w : Nat) :
    ∀ (j : Nat) (m : List SkipListNode) (b : Nat),
      valueAt (linkNew m upd w j) b = valueAt m b := by
  intro j
  induction j with
  | zero => intro m b; rfl
  | succ j ih =>
    intro m b
    rw [linkNew, setFwdAt_valueAt, ih]

theorem linkNew_levelAt (upd : List Nat) (w : Nat) :
    ∀ (j : Nat) (m : List SkipListNode) (b : Nat),
      levelAt (linkNew m upd w j) b = levelAt m b := by
  intro j
  induction j with
  | zero => intro m b; rfl
  | succ j ih =>
    intro m b
    rw [linkNew, setFwdAt_levelAt, ih]

theorem linkNew_fwdLen (upd : List Nat) (w : Nat) :
    ∀ (j : Nat) (m : List SkipListNode) (b : Nat),
      ((linkNew m upd w j)[b]?.map (fun n => n.forward.length)).getD 0 =
        (m[b]?.map (fun n => n.forward.length)).getD 0 := by
  intro j
  induction j with
  | zero => intro m b; rfl
  | succ j ih =>
    intro m b
    rw [linkNew, setFwdAt_fwdLen, ih]

theorem linkNew_fwd (upd : List Nat) (w : Nat) :
    ∀ (j : Nat) (m : List SkipListNode),
      (∀ i, i < j → ∃ n, m[upd.getD i 0]? = some n ∧ i < n.forward.length) →
      ∀ (b i : Nat),
        fwd (linkNew m upd w j) b i =
          if i < j ∧ b = upd.getD i 0 then some w else fwd m b i := by
  intro j
  induction j with
  | zero =>
    intro m _ b i
    rw [if_neg (by omega)]
    rfl
  | succ j ih =>
    intro m hval b i
    rw [linkNew]
    by_cases hij : i = j
    · subst hij
      by_cases hb : b = upd.getD i 0
      · subst hb
        obtain ⟨n, hn, hlen⟩ := hval i (by omega)
        -- the node still exists with the same forward length after linkNew
        have hn2 : ∃ n2, (linkNew m upd w i)[upd.getD i 0]? = some n2 ∧
            i < n2.forward.length := by
          have hl := linkNew_fwdLen upd w i m (upd.getD i 0)
          cases hx : (linkNew m upd w i)[upd.getD i 0]? with
          | none =>
            rw [hx, hn] at hl
            simp at hl
            omega
          | some n2 =>
            rw [hx, hn] at hl
            simp at hl
            exact ⟨n2, rfl, by omega⟩
        obtain ⟨n2, hn2e, hn2l⟩ := hn2
        rw [setFwdAt_fwd_self _ _ _ _ n2 hn2e hn2l, if_pos ⟨by omega, rfl⟩]
      · rw [setFwdAt_fwd_ne_addr _ _ _ _ _ _ hb, ih m (fun i2 hi2 => hval i2 (by omega)),
          if_neg (by omega), if_neg (by intro hx; exact hb hx.2)]
    · rw [setFwdAt_fwd_ne_slot _ _ _ _ _ _ hij, ih m (fun i2 hi2 => hval i2 (by omega))]
      by_cases hlt : i < j ∧ b = upd.getD i 0
      · rw [if_pos hlt, if_pos ⟨by omega, hlt.2⟩]
      · rw [if_neg hlt, if_neg (by intro hx; exact hlt ⟨by omega, hx.2⟩)]

end AmDb
namespace AmDb

theorem sum_congr_update (f f2 : Nat → Nat) (c : Nat) :
    ∀ (l : List Nat), l.Nodup → c ∈ l → (∀ a ∈ l, a ≠ c → f2 a = f a) →
      (l.map f2).sum + f c = (l.map f).sum + f2 c := by
  intro l
  induction l with
  | nil => intro _ hc; exact absurd hc (by simp)
  | cons x t ih =>
    intro hnd hc hcong
    rw [List.nodup_cons] at hnd
    rcases List.mem_cons.mp hc with rfl | hct
    · have ht : t.map f2 = t.map f := by
        apply List.map_congr_left
        intro a ha
        exact hcong a (by simp [ha]) (fun he => hnd.1 (he ▸ ha))
      rw [List.map_cons, List.map_cons, ht, List.sum_cons, List.sum_cons]
      omega
    · have hx : x ≠ c := fun he => hnd.1 (he ▸ hct)
      have := ih hnd.2 hct (fun a ha hane => hcong a (by simp [ha]) hane)
      rw [List.map_cons, List.map_cons, List.sum_cons, List.sum_cons,
        hcong x (by simp) hx]
      omega

theorem sum_ge_mem (f : Nat → Nat) : ∀ (l : List Nat) (a : Nat), a ∈ l →
    f a ≤ (l.map f).sum := by
  intro l
  induction l with
  | nil => intro a ha; exact absurd ha (by simp)
  | cons x t ih =>
    intro a ha
    rw [List.map_cons, List.sum_cons]
    rcases List.mem_cons.mp ha with rfl | hat
    · omega
    · have := ih a hat
      omega

theorem levFilter_setValueAt (mem : List SkipListNode) (a : Nat) (v : Bytes)
    (ver : Int) (ts : Nat) (i : Nat) (spine : List Nat) :
    levFilter (setValueAt mem a v ver ts) i spine = levFilter mem i spine := by
  rw [levFilter, levFilter]
  apply List.filter_congr
  intro b _
  rw [levelAt_setValueAt]

theorem update_WF {st : SkipListCython} {spine : List Nat} (W : SLWF st spine)
    (c : Nat) (hc : c ∈ spine) (v : Bytes) (ver : Int) (ts : Nat) :
    SLWF { st with
            mem := setValueAt st.mem c v ver ts
            size := st.size - (valueAt st.mem c).length - 16 + (v.length + 16) }
      spine := by
  have hkey : ∀ b, keyAt (setValueAt st.mem c v ver ts) b = keyAt st.mem b :=
    keyAt_setValueAt st.mem c v ver ts
  have hlev : ∀ b, levelAt (setValueAt st.mem c v ver ts) b = levelAt st.mem b :=
    levelAt_setValueAt st.mem c v ver ts
  refine ⟨?_, ?_, W.nodup, W.not_header, ?_, ?_, ?_, ?_, ?_, W.list_level_pos,
    W.list_level_le, ?_⟩
  · intro i hi
    rw [levFilter_setValueAt]
    exact chain_congr (W.chains i hi) (fun b _ => fwd_setValueAt st.mem c v ver ts b i)
  · have : spine.map (keyAt (setValueAt st.mem c v ver ts)) = spine.map (keyAt st.mem) :=
      List.map_congr_left (fun b _ => hkey b)
    rw [this]
    exact W.sorted
  · intro a ha
    rw [setValueAt_length]
    exact W.valid a ha
  · intro a ha
    rw [hlev]
    exact W.level_pos a ha
  · intro a ha
    rw [hlev]
    exact W.level_le a ha
  · intro a ha
    rw [fwdLen_setValueAt, hlev]
    exact W.fwd_len a ha
  · rw [fwdLen_setValueAt]
    exact W.header
  · show st.size - (valueAt st.mem c).length - 16 + (v.length + 16) =
      (spine.map fun a => (keyAt (setValueAt st.mem c v ver ts) a).length +
        (valueAt (setValueAt st.mem c v ver ts) a).length + 16).sum
    have hsum := sum_congr_update
      (fun a => (keyAt st.mem a).length + (valueAt st.mem a).length + 16)
      (fun a => (keyAt (setValueAt st.mem c v ver ts) a).length +
        (valueAt (setValueAt st.mem c v ver ts) a).length + 16)
      c spine W.nodup hc ?_
    · have hge := sum_ge_mem
        (fun a => (keyAt st.mem a).length + (valueAt st.mem a).length + 16) spine c hc
      have hsz := W.size_eq
      have hvc : valueAt (setValueAt st.mem c v ver ts) c = v := by
        cases hm : st.mem[c]? with
        | none =>
          exfalso
          have := W.valid c hc
          rw [List.getElem?_eq_none_iff] at hm
          omega
        | some n => exact valueAt_setValueAt_self st.mem c v ver ts n hm
      simp only [] at hsum hge
      rw [hkey c, hvc] at hsum
      omega
    · intro a _ hane
      have hva : valueAt (setValueAt st.mem c v ver ts) a = valueAt st.mem a := by
        rw [setValueAt]
        cases hm : st.mem[c]? with
        | none => rfl
        | some n =>
          rw [valueAt, valueAt, List.getElem?_set_ne (fun he => hane he.symm)]
      simp only []
      rw [hkey a, hva]

end AmDb
namespace AmDb

theorem spine_length_lt {st : SkipListCython} {spine : List Nat} (W : SLWF st spine) :
    spine.length < st.mem.length := by
  have hmem0 : st.mem ≠ [] := by
    intro he
    have hh := W.header
    rw [he] at hh
    simp at hh
    have := W.list_level_le
    have := W.list_level_pos
    omega
  have hlen1 : 1 ≤ st.mem.length := List.length_pos.mpr hmem0
  have hsub : spine ⊆ List.range' 1 (st.mem.length - 1) := by
    intro a ha
    rw [List.mem_range'_1]
    have h1 := W.valid a ha
    have h2 : a ≠ 0 := fun he => W.not_header (he ▸ ha)
    omega
  have := (List.subperm_of_subset W.nodup hsub).length_le
  rw [List.length_range'] at this
  omega

theorem sorted_dropWhile_not {mem : List SkipListNode} {key : Bytes} :
    ∀ {spine : List Nat}, (spine.map (keyAt mem)).Pairwise bytesLt →
      ∀ x ∈ spine.dropWhile (pLt mem key), pLt mem key x = false := by
  intro spine
  induction spine with
  | nil => intro _ x hx; exact absurd hx (by simp)
  | cons a t ih =>
    intro hs x hx
    rw [List.map_cons, List.pairwise_cons] at hs
    by_cases hp : pLt mem key a
    · rw [List.dropWhile_cons_of_pos hp] at hx
      exact ih hs.2 x hx
    · rw [List.dropWhile_cons_of_neg hp] at hx
      rcases List.mem_cons.mp hx with rfl | hxt
      · exact Bool.eq_false_iff.mpr hp
      · rw [Bool.eq_false_iff]
        intro hpx
        apply hp
        rw [pLt, decide_eq_true_eq] at hpx ⊢
        have hlt : bytesLt (keyAt mem a) (keyAt mem x) :=
          hs.1 (keyAt mem x) (List.mem_map_of_mem _ hxt)
        exact byteCmp_lt_trans hlt hpx

theorem chain_redirect {mem2 mem : List SkipListNode} {i u w : Nat} {d : List Nat}
    (h : IsChain mem i u d) (hw : fwd mem2 w i = fwd mem u i)
    (hd : ∀ x ∈ d, fwd mem2 x i = fwd mem x i) : IsChain mem2 i w d := by
  cases h with
  | nil hf => exact IsChain.nil (by rw [hw, hf])
  | cons hf h2 =>
    refine IsChain.cons (by rw [hw, hf]) (chain_congr h2 hd)

theorem chain_splice {mem2 mem : List SkipListNode} {i u w : Nat} {d2 : List Nat} :
    ∀ (t : List Nat) (start : Nat) (d : List Nat),
      IsChain mem i start (t ++ d) →
      (start :: t).Nodup →
      t.getLastD start = u →
      (∀ x ∈ start :: t, x ≠ u → fwd mem2 x i = fwd mem x i) →
      fwd mem2 u i = some w →
      IsChain mem2 i w d2 →
      IsChain mem2 i start (t ++ w :: d2) := by
  intro t
  induction t with
  | nil =>
    intro start d _ _ hlast _ hu hd2
    rw [List.getLastD] at hlast
    subst hlast
    exact IsChain.cons hu hd2
  | cons x t2 ih =>
    intro start d hch hnd hlast hpt hu hd2
    cases hch with
    | cons hf h2 =>
      rw [List.getLastD_cons] at hlast
      have hstart_ne : start ≠ u := by
        intro he
        subst he
        have hmem : t2.getLastD x ∈ x :: t2 := by
          have h := getLastD_mem (x :: t2) x (by simp)
          rwa [List.getLastD_cons] at h
        rw [hlast] at hmem
        rw [List.nodup_cons] at hnd
        exact hnd.1 hmem
      refine IsChain.cons ?_ ?_
      · rw [hpt start (by simp) hstart_ne, hf]
      · refine ih x d h2 ?_ hlast ?_ hu hd2
        · rw [List.nodup_cons] at hnd
          exact hnd.2
        · intro y hy hyne
          exact hpt y (List.mem_cons_of_mem _ hy) hyne

end AmDb
namespace AmDb

theorem wf_mem_ne_nil {st : SkipListCython} {spine : List Nat} (W : SLWF st spine) :
    st.mem ≠ [] := by
  intro he
  have hh := W.header
  rw [he] at hh
  simp at hh
  have := W.list_level_le
  have := W.list_level_pos
  omega

theorem insertFresh_WF {st : SkipListCython} {spine : List Nat} (W : SLWF st spine)
    (k v : Bytes) (ver : Int) (ts nl : Nat)
    (hnl1 : 1 ≤ nl) (hnl2 : nl ≤ st.level)
    (upd : List Nat)
    (hu : ∀ i, i < st.level → upd.getD i 0 =
      ((levFilter st.mem i spine).takeWhile (pLt st.mem k)).getLastD 0)
    (hnf : ∀ c, (spine.dropWhile (pLt st.mem k)).head? = some c → keyAt st.mem c ≠ k) :
    SLWF (insertFresh st k v ver ts nl upd)
      (spine.takeWhile (pLt st.mem k) ++
        st.mem.length :: spine.dropWhile (pLt st.mem k)) := by
  have hmemne := wf_mem_ne_nil W
  have hlenpos : 1 ≤ st.mem.length := List.length_pos.mpr hmemne
  set p := pLt st.mem k with hp
  set tw := spine.takeWhile p with htw
  set dw := spine.dropWhile p with hdw
  set w := st.mem.length with hwdef
  set node : SkipListNode := ⟨k, v, ver, ts, nl, newForward st.mem upd nl⟩ with hnode
  set mem1 := st.mem ++ [node] with hmem1
  set mem2 := linkNew mem1 upd w nl with hmem2
  have hsplit : tw ++ dw = spine := by
    rw [htw, hdw]
    exact List.takeWhile_append_dropWhile p spine
  have htwp : ∀ x ∈ tw, p x = true := fun x hx => List.mem_takeWhile_imp hx
  have hdwp : ∀ x ∈ dw, p x = false := sorted_dropWhile_not W.sorted
  have htw_sub : ∀ x ∈ tw, x ∈ spine := fun x hx => (List.takeWhile_sublist p).subset hx
  have hdw_sub : ∀ x ∈ dw, x ∈ spine := fun x hx => (List.dropWhile_sublist p).subset hx
  have hspine_lt : ∀ a ∈ spine, a < w := W.valid
  have hwne0 : w ≠ 0 := by omega
  have hdisj : ∀ x ∈ tw, x ∉ dw := by
    intro x hx hxd
    have hnd : (tw ++ dw).Nodup := by rw [hsplit]; exact W.nodup
    exact (List.disjoint_of_nodup_append hnd) hx hxd
  -- header access
  obtain ⟨h0, hh0, hh0len⟩ : ∃ h0, st.mem[0]? = some h0 ∧
      h0.forward.length = st.max_level := by
    cases hm : st.mem[0]? with
    | none =>
      rw [List.getElem?_eq_none_iff] at hm
      omega
    | some n =>
      have hh := W.header
      rw [hm] at hh
      exact ⟨n, rfl, by simpa using hh⟩
  -- projections of the new heap
  have hlev2 : ∀ b, b < st.mem.length → levelAt mem2 b = levelAt st.mem b := by
    intro b hb
    rw [hmem2, linkNew_levelAt, hmem1, append_levelAt_lt _ _ _ hb]
  have hkey2 : ∀ b, b < st.mem.length → keyAt mem2 b = keyAt st.mem b := by
    intro b hb
    rw [hmem2, linkNew_keyAt, hmem1, append_keyAt_lt _ _ _ hb]
  have hval2 : ∀ b, b < st.mem.length → valueAt mem2 b = valueAt st.mem b := by
    intro b hb
    rw [hmem2, linkNew_valueAt, hmem1, append_valueAt_lt _ _ _ hb]
  have hm1w : mem1[w]? = some node := by
    rw [hmem1, hwdef]
    exact append_getElem_self st.mem node
  have hlev2w : levelAt mem2 w = nl := by
    rw [hmem2, linkNew_levelAt, levelAt, hm1w]
    rfl
  have hkey2w : keyAt mem2 w = k := by
    rw [hmem2, linkNew_keyAt, keyAt, hm1w]
    rfl
  have hval2w : valueAt mem2 w = v := by
    rw [hmem2, linkNew_valueAt, valueAt, hm1w]
    rfl
  have hlen2 : mem2.length = st.mem.length + 1 := by
    rw [hmem2, linkNew_length, hmem1, List.length_append]
    rfl
  have hfl2old : ∀ b, b < st.mem.length →
      (mem2[b]?.map (fun n => n.forward.length)).getD 0 =
        (st.mem[b]?.map (fun n => n.forward.length)).getD 0 := by
    intro b hb
    rw [hmem2, linkNew_fwdLen, hmem1, append_getElem_lt _ _ _ hb]
  have hfl2w : (mem2[w]?.map (fun n => n.forward.length)).getD 0 = nl := by
    rw [hmem2, linkNew_fwdLen, hm1w]
    show (newForward st.mem upd nl).length = nl
    rw [newForward, List.length_map, List.length_range]
  -- properties of the update vector entries
  have hprop : ∀ i, i < nl → upd.getD i 0 = 0 ∨
      (upd.getD i 0 ∈ spine ∧ p (upd.getD i 0) = true ∧
       i < levelAt st.mem (upd.getD i 0)) := by
    intro i hi
    rw [hu i (by omega)]
    exact lastBelow_prop W k i
  have hulst : ∀ i, i < nl → upd.getD i 0 < st.mem.length := by
    intro i hi
    rcases hprop i hi with h | ⟨h1, _, _⟩
    · omega
    · exact hspine_lt _ h1
  have hvalid_link : ∀ i, i < nl →
      ∃ n, mem1[upd.getD i 0]? = some n ∧ i < n.forward.length := by
    intro i hi
    rcases hprop i hi with h | ⟨h1, _, h3⟩
    · rw [h, hmem1, append_getElem_lt _ _ _ (by omega), hh0]
      refine ⟨h0, rfl, ?_⟩
      rw [hh0len]
      have := W.list_level_le
      omega
    · have hlt := hspine_lt _ h1
      cases hm : st.mem[upd.getD i 0]? with
      | none =>
        rw [List.getElem?_eq_none_iff] at hm
        omega
      | some n =>
        rw [hmem1, append_getElem_lt _ _ _ hlt, hm]
        refine ⟨n, rfl, ?_⟩
        have hfl := W.fwd_len _ h1
        rw [hm] at hfl
        have hfl2 : n.forward.length = levelAt st.mem (upd.getD i 0) := hfl
        omega
  have hfwd2 : ∀ b i, fwd mem2 b i =
      if i < nl ∧ b = upd.getD i 0 then some w else fwd mem1 b i :=
    linkNew_fwd upd w nl mem1 hvalid_link
  have hfwd1_old : ∀ b, b < st.mem.length → ∀ i, fwd mem1 b i = fwd st.mem b i := by
    intro b hb i
    rw [hmem1, append_fwd_lt _ _ _ _ hb]
  have hfwd1_w : ∀ i, i < nl → fwd mem1 w i = fwd st.mem (upd.getD i 0) i := by
    intro i hi
    rw [fwd, hm1w]
    have hnf2 : (newForward st.mem upd nl)[i]? = some (fwd st.mem (upd.getD i 0) i) := by
      rw [newForward, List.getElem?_map, List.getElem?_range hi]
      rfl
    show (match node.forward[i]? with
      | some o => o
      | none => none) = _
    rw [hnode]
    show (match (newForward st.mem upd nl)[i]? with
      | some o => o
      | none => none) = _
    rw [hnf2]
  -- old spine entries keep their fwd at non-redirected slots
  have hfwd2_old : ∀ b i, b < st.mem.length → (i < nl → b ≠ upd.getD i 0) →
      fwd mem2 b i = fwd st.mem b i := by
    intro b i hb hne
    rw [hfwd2]
    rw [if_neg (by intro hx; exact hne hx.1 hx.2)]
    exact hfwd1_old b hb i
  -- filters of the split
  have hfsplit : ∀ i, levFilter st.mem i spine =
      levFilter st.mem i tw ++ levFilter st.mem i dw := by
    intro i
    rw [← hsplit]
    simp [levFilter]
  have htwf_p : ∀ i, ∀ x ∈ levFilter st.mem i tw, p x = true := by
    intro i x hx
    exact htwp x ((List.filter_sublist tw).subset hx)
  have hdwmem : ∀ i, ∀ x ∈ levFilter st.mem i dw, x ∈ dw := by
    intro i x hx
    exact (List.filter_sublist dw).subset hx
  have hctake : ∀ i, (levFilter st.mem i spine).takeWhile p = levFilter st.mem i tw := by
    intro i
    rw [hfsplit i, takeWhile_all_append p _ _ (htwf_p i)]
    cases hfd : levFilter st.mem i dw with
    | nil => rw [List.takeWhile_nil, List.append_nil]
    | cons y ys =>
      have hy : p y = false := hdwp y (hdwmem i y (by rw [hfd]; simp))
      rw [List.takeWhile_cons_of_neg (by rw [hy]; simp), List.append_nil]
  have hcdrop : ∀ i, (levFilter st.mem i spine).dropWhile p = levFilter st.mem i dw := by
    intro i
    rw [hfsplit i, dropWhile_all_append p _ _ (htwf_p i)]
    cases hfd : levFilter st.mem i dw with
    | nil => rfl
    | cons y ys =>
      have hy : p y = false := hdwp y (hdwmem i y (by rw [hfd]; simp))
      rw [List.dropWhile_cons_of_neg (by rw [hy]; simp)]
  -- the filter of the new spine in the new heap
  have hfilter2 : ∀ i, levFilter mem2 i (tw ++ w :: dw) =
      levFilter st.mem i tw ++
        (if i < nl then w :: levFilter st.mem i dw else levFilter st.mem i dw) := by
    intro i
    rw [levFilter, List.filter_append, List.filter_cons]
    have htwf : tw.filter (fun a => decide (i < levelAt mem2 a)) = levFilter st.mem i tw := by
      rw [levFilter]
      apply List.filter_congr
      intro b hb
      rw [hlev2 b (hspine_lt b (htw_sub b hb))]
    have hdwf : dw.filter (fun a => decide (i < levelAt mem2 a)) = levFilter st.mem i dw := by
      rw [levFilter]
      apply List.filter_congr
      intro b hb
      rw [hlev2 b (hspine_lt b (hdw_sub b hb))]
    rw [htwf, hdwf, hlev2w]
    by_cases hi : i < nl
    · rw [if_pos (by simpa using hi), if_pos hi]
    · rw [if_neg (by simpa using hi), if_neg hi]
  -- sortedness material
  have hkgt : ∀ c, dw.head? = some c → byteCmp k (keyAt st.mem c) = Ordering.lt := by
    intro c hc
    have hcd : c ∈ dw := by
      cases hyd : dw with
      | nil => rw [hyd] at hc; exact absurd hc (by simp)
      | cons y ys =>
        rw [hyd] at hc
        rw [List.head?_cons, Option.some_inj] at hc
        rw [← hc]
        simp
    have hpc := hdwp c hcd
    have hne := hnf c hc
    rw [hp, pLt] at hpc
    simp at hpc
    cases hcmp : byteCmp (keyAt st.mem c) k with
    | lt => exact absurd hcmp hpc
    | eq => exact absurd ((byteCmp_eq_iff _ _).mp hcmp) hne
    | gt => rw [byteCmp_gt_iff] at hcmp; exact hcmp
  have hkdw : ∀ x ∈ dw, byteCmp k (keyAt st.mem x) = Ordering.lt := by
    intro x hx
    cases hyd : dw with
    | nil => rw [hyd] at hx; exact absurd hx (by simp)
    | cons y ys =>
      have hky : byteCmp k (keyAt st.mem y) = Ordering.lt := hkgt y (by rw [hyd]; rfl)
      rw [hyd] at hx
      rcases List.mem_cons.mp hx with rfl | hxys
      · exact hky
      · have hsorted_dw : (dw.map (keyAt st.mem)).Pairwise bytesLt :=
          W.sorted.sublist (List.Sublist.map _ (List.dropWhile_sublist p))
        rw [hyd, List.map_cons, List.pairwise_cons] at hsorted_dw
        have := hsorted_dw.1 (keyAt st.mem x) (List.mem_map_of_mem _ hxys)
        exact byteCmp_lt_trans hky this
  -- the chains of the new state
  have hC : forall i, i < st.max_level ->
      IsChain mem2 i 0 (levFilter mem2 i (tw ++ w :: dw)) := by
    intro i hi
    rw [hfilter2 i]
    by_cases hinl : i < nl
    · rw [if_pos hinl]
      have hui := hu i (by omega)
      have hui2 : upd.getD i 0 =
          ((levFilter st.mem i spine).takeWhile (pLt st.mem k)).getLastD 0 := by
        rw [hui, hp]
      have hprops := lastBelow_prop W k i
      rw [← hui2] at hprops
      obtain ⟨hadv, hchain⟩ := advance_mid W k i hi (upd.getD i 0) hprops
        st.mem.length (le_of_lt (spine_length_lt W))
      rw [← hui2] at hadv
      rw [hadv] at hchain
      rw [← hp] at hchain
      rw [hcdrop i] at hchain
      have hold := W.chains i hi
      rw [hfsplit i] at hold
      have hnd : (0 :: levFilter st.mem i tw).Nodup := by
        rw [List.nodup_cons]
        constructor
        · intro h0
          exact W.not_header (htw_sub _ ((List.filter_sublist tw).subset h0))
        · exact List.Pairwise.sublist
            ((List.filter_sublist tw).trans (List.takeWhile_sublist p)) W.nodup
      have hlast : (levFilter st.mem i tw).getLastD 0 = upd.getD i 0 := by
        rw [hui2, ← hp, hctake i]
      have hpt : ∀ x ∈ 0 :: levFilter st.mem i tw, x ≠ upd.getD i 0 →
          fwd mem2 x i = fwd st.mem x i := by
        intro x hx hxne
        have hxlt : x < st.mem.length := by
          rcases List.mem_cons.mp hx with rfl | hxf
          · omega
          · exact hspine_lt _ (htw_sub _ ((List.filter_sublist tw).subset hxf))
        exact hfwd2_old x i hxlt (fun _ => hxne)
      have hfu : fwd mem2 (upd.getD i 0) i = some w := by
        rw [hfwd2, if_pos ⟨hinl, rfl⟩]
      have hwfwd : fwd mem2 w i = fwd st.mem (upd.getD i 0) i := by
        rw [hfwd2]
        rw [if_neg (by
          intro hx
          rcases hx with ⟨_, hx2⟩
          have := hulst i hinl
          omega)]
        exact hfwd1_w i hinl
      have hdpt : ∀ x ∈ levFilter st.mem i dw, fwd mem2 x i = fwd st.mem x i := by
        intro x hxf
        have hxd : x ∈ dw := hdwmem i x hxf
        have hxlt : x < st.mem.length := hspine_lt _ (hdw_sub _ hxd)
        refine hfwd2_old x i hxlt ?_
        intro hiln hxe
        rcases hprop i hiln with h0 | ⟨_, hpu, _⟩
        · rw [h0] at hxe
          rw [hxe] at hxd
          exact W.not_header (hdw_sub _ hxd)
        · rw [← hxe] at hpu
          rw [hdwp x hxd] at hpu
          exact Bool.noConfusion hpu
      have hchain2 : IsChain mem2 i w (levFilter st.mem i dw) :=
        chain_redirect hchain hwfwd hdpt
      exact chain_splice _ 0 _ hold hnd hlast hpt hfu hchain2
    · rw [if_neg hinl]
      have hold := W.chains i hi
      rw [hfsplit i] at hold
      refine chain_congr hold ?_
      intro b hb
      have hblt : b < st.mem.length := by
        rcases List.mem_cons.mp hb with rfl | hbf
        · omega
        · rcases List.mem_append.mp hbf with h1 | h2
          · exact hspine_lt _ (htw_sub _ ((List.filter_sublist tw).subset h1))
          · exact hspine_lt _ (hdw_sub _ ((List.filter_sublist dw).subset h2))
      refine hfwd2_old b i hblt ?_
      intro hiln
      omega
  -- keys of the new spine
  have hS : ((tw ++ w :: dw).map (keyAt mem2)).Pairwise bytesLt := by
    have hmap : (tw ++ w :: dw).map (keyAt mem2) =
        tw.map (keyAt st.mem) ++ k :: dw.map (keyAt st.mem) := by
      rw [List.map_append, List.map_cons, hkey2w]
      congr 1
      · apply List.map_congr_left
        intro b hb
        exact hkey2 b (hspine_lt b (htw_sub b hb))
      · congr 1
        apply List.map_congr_left
        intro b hb
        exact hkey2 b (hspine_lt b (hdw_sub b hb))
    rw [hmap, List.pairwise_append]
    refine ⟨?_, ?_, ?_⟩
    · exact List.Pairwise.sublist (List.Sublist.map _ (List.takeWhile_sublist p)) W.sorted
    · rw [List.pairwise_cons]
      refine ⟨?_, List.Pairwise.sublist
        (List.Sublist.map _ (List.dropWhile_sublist p)) W.sorted⟩
      intro y hy
      obtain ⟨x, hxd, rfl⟩ := List.mem_map.mp hy
      exact hkdw x hxd
    · intro x hx y hy
      obtain ⟨a, hatw, rfl⟩ := List.mem_map.mp hx
      have hpa : p a = true := htwp a hatw
      have hak : byteCmp (keyAt st.mem a) k = Ordering.lt := by
        rw [hp, pLt] at hpa
        exact of_decide_eq_true hpa
      rcases List.mem_cons.mp hy with rfl | hydw
      · exact hak
      · obtain ⟨b, hbd, rfl⟩ := List.mem_map.mp hydw
        exact byteCmp_lt_trans hak (hkdw b hbd)
  have hN : (tw ++ w :: dw).Nodup := by
    rw [List.nodup_middle, List.nodup_cons, hsplit]
    constructor
    · intro hwmem
      exact absurd (hspine_lt w hwmem) (by omega)
    · exact W.nodup
  have hH : 0 ∉ tw ++ w :: dw := by
    intro h0
    rcases List.mem_append.mp h0 with h1 | h2
    · exact W.not_header (htw_sub _ h1)
    · rcases List.mem_cons.mp h2 with he | h3
      · omega
      · exact W.not_header (hdw_sub _ h3)
  have hV : ∀ a ∈ tw ++ w :: dw, a < mem2.length := by
    intro a ha
    rw [hlen2]
    rcases List.mem_append.mp ha with h1 | h2
    · have := hspine_lt _ (htw_sub _ h1)
      omega
    · rcases List.mem_cons.mp h2 with rfl | h3
      · omega
      · have := hspine_lt _ (hdw_sub _ h3)
        omega
  have hLP : ∀ a ∈ tw ++ w :: dw, 1 ≤ levelAt mem2 a := by
    intro a ha
    rcases List.mem_append.mp ha with h1 | h2
    · rw [hlev2 a (hspine_lt _ (htw_sub _ h1))]
      exact W.level_pos _ (htw_sub _ h1)
    · rcases List.mem_cons.mp h2 with rfl | h3
      · rw [hlev2w]
        omega
      · rw [hlev2 a (hspine_lt _ (hdw_sub _ h3))]
        exact W.level_pos _ (hdw_sub _ h3)
  have hLL : ∀ a ∈ tw ++ w :: dw, levelAt mem2 a ≤ st.level := by
    intro a ha
    rcases List.mem_append.mp ha with h1 | h2
    · rw [hlev2 a (hspine_lt _ (htw_sub _ h1))]
      exact W.level_le _ (htw_sub _ h1)
    · rcases List.mem_cons.mp h2 with rfl | h3
      · rw [hlev2w]
        exact hnl2
      · rw [hlev2 a (hspine_lt _ (hdw_sub _ h3))]
        exact W.level_le _ (hdw_sub _ h3)
  have hFL : ∀ a ∈ tw ++ w :: dw,
      (mem2[a]?.map (·.forward.length)).getD 0 = levelAt mem2 a := by
    intro a ha
    rcases List.mem_append.mp ha with h1 | h2
    · rw [hfl2old a (hspine_lt _ (htw_sub _ h1)), hlev2 a (hspine_lt _ (htw_sub _ h1))]
      exact W.fwd_len _ (htw_sub _ h1)
    · rcases List.mem_cons.mp h2 with rfl | h3
      · rw [hfl2w, hlev2w]
      · rw [hfl2old a (hspine_lt _ (hdw_sub _ h3)), hlev2 a (hspine_lt _ (hdw_sub _ h3))]
        exact W.fwd_len _ (hdw_sub _ h3)
  have hHd : (mem2[0]?.map (·.forward.length)).getD 0 = st.max_level := by
    rw [hfl2old 0 (by omega)]
    exact W.header
  have hSZ : st.size + (k.length + v.length + 16) =
      ((tw ++ w :: dw).map fun a =>
        (keyAt mem2 a).length + (valueAt mem2 a).length + 16).sum := by
    have htwm : tw.map (fun a => (keyAt mem2 a).length + (valueAt mem2 a).length + 16) =
        tw.map (fun a => (keyAt st.mem a).length + (valueAt st.mem a).length + 16) := by
      apply List.map_congr_left
      intro b hb
      rw [hkey2 b (hspine_lt _ (htw_sub _ hb)), hval2 b (hspine_lt _ (htw_sub _ hb))]
    have hdwm : dw.map (fun a => (keyAt mem2 a).length + (valueAt mem2 a).length + 16) =
        dw.map (fun a => (keyAt st.mem a).length + (valueAt st.mem a).length + 16) := by
      apply List.map_congr_left
      intro b hb
      rw [hkey2 b (hspine_lt _ (hdw_sub _ hb)), hval2 b (hspine_lt _ (hdw_sub _ hb))]
    rw [List.map_append, List.map_cons, htwm, hdwm, hkey2w, hval2w,
      List.sum_append, List.sum_cons]
    have hsum : (tw.map (fun a =>
        (keyAt st.mem a).length + (valueAt st.mem a).length + 16)).sum +
        (dw.map (fun a =>
          (keyAt st.mem a).length + (valueAt st.mem a).length + 16)).sum = st.size := by
      rw [← List.sum_append, ← List.map_append, hsplit]
      exact W.size_eq.symm
    omega
  exact ⟨hC, hS, hN, hH, hV, hLP, hLL, hFL, hHd, W.list_level_pos, W.list_level_le, hSZ⟩

end AmDb
namespace AmDb

theorem insertItem_eq_none (st : SkipListCython) (k v : Bytes) (ver : Int) (ts nl : Nat)
    (h : fwd st.mem ((searchFrom st.mem k st.mem.length 0 st.level).getD 0 0) 0 = none) :
    insertItem st k v ver ts nl =
      insertFresh st k v ver ts nl (searchFrom st.mem k st.mem.length 0 st.level) := by
  simp only [insertItem]
  rw [h]

theorem insertItem_eq_update (st : SkipListCython) (k v : Bytes) (ver : Int)
    (ts nl c : Nat)
    (h : fwd st.mem ((searchFrom st.mem k st.mem.length 0 st.level).getD 0 0) 0 = some c)
    (hk : keyAt st.mem c = k) :
    insertItem st k v ver ts nl =
      { st with
          mem := setValueAt st.mem c v ver ts
          size := st.size - (valueAt st.mem c).length - 16 + (v.length + 16) } := by
  simp only [insertItem]
  rw [h]
  simp only [hk, if_pos]

theorem insertItem_eq_some_ne (st : SkipListCython) (k v : Bytes) (ver : Int)
    (ts nl c : Nat)
    (h : fwd st.mem ((searchFrom st.mem k st.mem.length 0 st.level).getD 0 0) 0 = some c)
    (hk : ¬ keyAt st.mem c = k) :
    insertItem st k v ver ts nl =
      insertFresh st k v ver ts nl (searchFrom st.mem k st.mem.length 0 st.level) := by
  simp only [insertItem]
  rw [h]
  simp only [hk, if_false]

theorem insertItem_WF {st : SkipListCython} {spine : List Nat} (W : SLWF st spine)
    (k v : Bytes) (ver : Int) (ts nl : Nat)
    (hnl1 : 1 ≤ nl) (hnl2 : nl ≤ st.level) :
    ∃ spine2, SLWF (insertItem st k v ver ts nl) spine2 := by
  have hfuel : spine.length ≤ st.mem.length := le_of_lt (spine_length_lt W)
  obtain ⟨hlen, hu⟩ := searchFrom_spec W k st.mem.length hfuel st.level 0
    (le_refl _) (Or.inl rfl)
  set upd := searchFrom st.mem k st.mem.length 0 st.level with hupd
  have hu0 : upd.getD 0 0 =
      ((levFilter st.mem 0 spine).takeWhile (pLt st.mem k)).getLastD 0 :=
    hu 0 W.list_level_pos
  have hfilter0 : levFilter st.mem 0 spine = spine := by
    rw [levFilter]
    apply List.filter_eq_self.mpr
    intro a ha
    simpa using W.level_pos a ha
  have hprops := lastBelow_prop W k 0
  rw [← hu0] at hprops
  have h0max : 0 < st.max_level := by
    have := W.list_level_pos
    have := W.list_level_le
    omega
  obtain ⟨hadv, hchain⟩ := advance_mid W k 0 h0max (upd.getD 0 0) hprops
    st.mem.length (le_of_lt (spine_length_lt W))
  rw [← hu0] at hadv
  rw [hadv] at hchain
  rw [hfilter0] at hchain
  cases hdwe : spine.dropWhile (pLt st.mem k) with
  | nil =>
    rw [hdwe] at hchain
    cases hchain with
    | nil hf =>
      rw [insertItem_eq_none st k v ver ts nl hf]
      refine ⟨_, insertFresh_WF W k v ver ts nl hnl1 hnl2 upd hu ?_⟩
      intro c hc
      rw [hdwe] at hc
      exact absurd hc (by simp)
  | cons c rest =>
    rw [hdwe] at hchain
    cases hchain with
    | cons hf hrest =>
      by_cases hkc : keyAt st.mem c = k
      · rw [insertItem_eq_update st k v ver ts nl c hf hkc]
        have hcspine : c ∈ spine := by
          refine (List.dropWhile_sublist (pLt st.mem k)).subset ?_
          rw [hdwe]
          simp
        exact ⟨spine, update_WF W c hcspine v ver ts⟩
      · rw [insertItem_eq_some_ne st k v ver ts nl c hf hkc]
        refine ⟨_, insertFresh_WF W k v ver ts nl hnl1 hnl2 upd hu ?_⟩
        intro c2 hc2
        rw [hdwe] at hc2
        rw [List.head?_cons, Option.some_inj] at hc2
        rw [← hc2]
        exact hkc

end AmDb
namespace AmDb

theorem insertItem_level (st : SkipListCython) (k v : Bytes) (ver : Int) (ts nl : Nat) :
    (insertItem st k v ver ts nl).level = st.level := by
  simp only [insertItem]
  split
  · split
    · rfl
    · rfl
  · rfl

theorem insertItem_max_level (st : SkipListCython) (k v : Bytes) (ver : Int)
    (ts nl : Nat) : (insertItem st k v ver ts nl).max_level = st.max_level := by
  simp only [insertItem]
  split
  · split
    · rfl
    · rfl
  · rfl

theorem put_batch_loop_max_level (ts : Nat) :
    ∀ (l : List ((Bytes × Bytes × Int) × Nat)) (st : SkipListCython) (cnt : Nat),
      (put_batch_loop ts st l cnt).1.max_level = st.max_level := by
  intro l
  induction l with
  | nil => intro st cnt; rfl
  | cons q rest ih =>
    intro st cnt
    obtain ⟨it, nl⟩ := q
    simp only [put_batch_loop]
    by_cases hsz : st.size + (it.1.length + it.2.1.length + 16) > st.max_size
    · rw [if_pos hsz]
    · rw [if_neg hsz, ih, insertItem_max_level]

theorem put_batch_max_level (st : SkipListCython) (ts : Nat)
    (items : List (Bytes × Bytes × Int)) (nls : List Nat) :
    (put_batch st ts items nls).1.max_level = st.max_level := by
  rw [put_batch]
  by_cases hl : items.length = 0
  · rw [if_pos hl]
  · rw [if_neg hl, put_batch_loop_max_level]
    simp only [levelExtend]
    by_cases hc : nls.foldl max 1 > st.level
    · rw [if_pos hc]
    · rw [if_neg hc]

theorem foldl_max_init_le : ∀ (l : List Nat) (a : Nat), a ≤ l.foldl max a := by
  intro l
  induction l with
  | nil => intro a; exact le_refl a
  | cons x t ih =>
    intro a
    rw [List.foldl_cons]
    exact le_trans (le_max_left a x) (ih (max a x))

theorem le_foldl_max_of_mem : ∀ (l : List Nat) (a x : Nat), x ∈ l → x ≤ l.foldl max a := by
  intro l
  induction l with
  | nil => intro a x hx; exact absurd hx (by simp)
  | cons y t ih =>
    intro a x hx
    rw [List.foldl_cons]
    rcases List.mem_cons.mp hx with rfl | hxt
    · exact le_trans (le_max_right a x) (foldl_max_init_le t (max a x))
    · exact ih (max a y) x hxt

theorem foldl_max_le : ∀ (l : List Nat) (a m : Nat), a ≤ m → (∀ x ∈ l, x ≤ m) →
    l.foldl max a ≤ m := by
  intro l
  induction l with
  | nil => intro a m ha _; exact ha
  | cons y t ih =>
    intro a m ha h
    rw [List.foldl_cons]
    exact ih (max a y) m (max_le ha (h y (by simp))) (fun x hx => h x (by simp [hx]))

theorem levelExtend_level_ge (st : SkipListCython) (nls : List Nat) :
    nls.foldl max 1 ≤ (levelExtend st nls).level := by
  simp only [levelExtend]
  by_cases hc : nls.foldl max 1 > st.level
  · rw [if_pos hc]
  · rw [if_neg hc]
    omega

theorem levelExtend_WF {st : SkipListCython} {spine : List Nat} (W : SLWF st spine)
    (nls : List Nat) (h : nls.foldl max 1 ≤ st.max_level) :
    SLWF (levelExtend st nls) spine := by
  simp only [levelExtend]
  by_cases hc : nls.foldl max 1 > st.level
  · rw [if_pos hc]
    exact ⟨W.chains, W.sorted, W.nodup, W.not_header, W.valid, W.level_pos,
      fun a ha => le_trans (W.level_le a ha) (le_of_lt hc),
      W.fwd_len, W.header, le_trans W.list_level_pos (le_of_lt hc), h, W.size_eq⟩
  · rw [if_neg hc]
    exact W

theorem put_batch_loop_WF (ts : Nat) :
    ∀ (l : List ((Bytes × Bytes × Int) × Nat)) (st : SkipListCython)
      (spine : List Nat) (cnt : Nat), SLWF st spine →
      (∀ q ∈ l, 1 ≤ q.2 ∧ q.2 ≤ st.level) →
      ∃ spine2, SLWF (put_batch_loop ts st l cnt).1 spine2 := by
  intro l
  induction l with
  | nil =>
    intro st spine cnt W _
    exact ⟨spine, W⟩
  | cons q rest ih =>
    intro st spine cnt W hq
    obtain ⟨it, nl⟩ := q
    simp only [put_batch_loop]
    by_cases hsz : st.size + (it.1.length + it.2.1.length + 16) > st.max_size
    · rw [if_pos hsz]
      exact ⟨spine, W⟩
    · rw [if_neg hsz]
      have hnl := hq (it, nl) (by simp)
      obtain ⟨spine1, W1⟩ := insertItem_WF W it.1 it.2.1 it.2.2 ts nl hnl.1 hnl.2
      refine ih _ spine1 (cnt + 1) W1 ?_
      intro q2 hq2
      rw [insertItem_level]
      exact hq q2 (by simp [hq2])

theorem put_batch_WF {st : SkipListCython} {spine : List Nat} (W : SLWF st spine)
    (ts : Nat) (items : List (Bytes × Bytes × Int)) (nls : List Nat)
    (hnls : ∀ x ∈ nls, 1 ≤ x ∧ x ≤ st.max_level) :
    ∃ spine2, SLWF (put_batch st ts items nls).1 spine2 := by
  rw [put_batch]
  by_cases hl : items.length = 0
  · rw [if_pos hl]
    exact ⟨spine, W⟩
  · rw [if_neg hl]
    have hml1 : 1 ≤ st.max_level := by
      have := W.list_level_pos
      have := W.list_level_le
      omega
    have hmax : nls.foldl max 1 ≤ st.max_level :=
      foldl_max_le nls 1 st.max_level hml1 (fun x hx => (hnls x hx).2)
    have W1 := levelExtend_WF W nls hmax
    refine put_batch_loop_WF ts (items.zip nls) _ _ 0 W1 ?_
    intro q hq
    obtain ⟨q1, q2⟩ := q
    have hq2 : q2 ∈ nls := (List.of_mem_zip hq).2
    refine ⟨(hnls _ hq2).1, ?_⟩
    exact le_trans (le_foldl_max_of_mem nls 1 q2 hq2) (levelExtend_level_ge st nls)

theorem slRun_WF : ∀ (batches : List (Nat × List (Bytes × Bytes × Int) × List Nat))
    (st : SkipListCython) (spine : List Nat), SLWF st spine →
    (∀ b ∈ batches, ∀ x ∈ b.2.2, 1 ≤ x ∧ x ≤ st.max_level) →
    ∃ spine2, SLWF (slRun st batches) spine2 := by
  intro batches
  induction batches with
  | nil =>
    intro st spine W _
    exact ⟨spine, W⟩
  | cons b rest ih =>
    intro st spine W hb
    have hstep : slRun st (b :: rest) = slRun (put_batch st b.1 b.2.1 b.2.2).1 rest := by
      rw [slRun, slRun, List.foldl_cons]
    rw [hstep]
    obtain ⟨spine1, W1⟩ := put_batch_WF W b.1 b.2.1 b.2.2 (hb b (by simp))
    refine ih _ spine1 W1 ?_
    intro b2 hb2 x hx
    refine ⟨(hb b2 (by simp [hb2]) x hx).1, ?_⟩
    rw [put_batch_max_level]
    exact (hb b2 (by simp [hb2]) x hx).2

theorem slInit_WF (ml ms : Nat) (hml : 1 ≤ ml) : SLWF (slInit ml ms) [] := by
  refine ⟨?_, by simp, by simp, by simp, by simp, by simp, by simp, by simp, ?_,
    le_refl 1, hml, rfl⟩
  · intro i hi
    refine IsChain.nil ?_
    have hi2 : i < ml := hi
    simp [slInit, fwd, List.getElem?_replicate, hi2]
  · simp [slInit]

end AmDb
namespace AmDb

/-- C4: after any sequence of `put_batch` calls (inserts and in-place updates,
with level draws in `[1, max_level]`), the in-order traversal of the skip
list's bottom level yields keys in strictly increasing byte-lexicographic
order (`bytesLt`, shared prefix first, shorter key first) with no duplicate
keys: an update of an existing key reuses that key's node, so no key ever has
two live nodes. -/
theorem c4_traversal_sorted (ml ms : Nat) (hml : 1 ≤ ml)
    (batches : List (Nat × List (Bytes × Bytes × Int) × List Nat))
    (hdraws : ∀ b ∈ batches, ∀ x ∈ b.2.2, 1 ≤ x ∧ x ≤ ml) :
    (traversalKeys (slRun (slInit ml ms) batches)).Pairwise bytesLt ∧
      (traversalKeys (slRun (slInit ml ms) batches)).Nodup := by
  obtain ⟨spine2, W2⟩ := slRun_WF batches (slInit ml ms) [] (slInit_WF ml ms hml) hdraws
  set st2 := slRun (slInit ml ms) batches with hst2
  have hfilter0 : levFilter st2.mem 0 spine2 = spine2 := by
    rw [levFilter]
    apply List.filter_eq_self.mpr
    intro a ha
    simpa using W2.level_pos a ha
  have h0max : 0 < st2.max_level := by
    have := W2.list_level_pos
    have := W2.list_level_le
    omega
  have hchain := W2.chains 0 h0max
  rw [hfilter0] at hchain
  have htrav : traversal st2 = spine2 := by
    rw [traversal]
    exact walkChain_eq spine2 0 st2.mem.length hchain (le_of_lt (spine_length_lt W2))
  have hpair : (traversalKeys st2).Pairwise bytesLt := by
    rw [traversalKeys, htrav]
    exact W2.sorted
  refine ⟨hpair, List.Pairwise.imp ?_ hpair⟩
  intro a b hlt
  intro he
  rw [he] at hlt
  have hlt2 : byteCmp b b = Ordering.lt := hlt
  have heq : byteCmp b b = Ordering.eq := (byteCmp_eq_iff b b).mpr rfl
  rw [heq] at hlt2
  exact Ordering.noConfusion hlt2

/-- Witness for C4: one batch inserting keys `[1]` then `[0]` (reverse order)
with level draws 1 satisfies the hypotheses, and the theorem applies. -/
theorem c4_traversal_sorted_witness :
    (1 ≤ 2 ∧ ∀ b ∈ [((1 : Nat), [(([1] : Bytes), ([2] : Bytes), (1 : Int)),
        ([0], [3], 1)], [1, 1])], ∀ x ∈ b.2.2, 1 ≤ x ∧ x ≤ 2) ∧
    ((traversalKeys (slRun (slInit 2 1000)
        [(1, [([1], [2], 1), ([0], [3], 1)], [1, 1])])).Pairwise bytesLt ∧
      (traversalKeys (slRun (slInit 2 1000)
        [(1, [([1], [2], 1), ([0], [3], 1)], [1, 1])])).Nodup) :=
  ⟨⟨by decide, by decide⟩,
    c4_traversal_sorted 2 1000 (by decide)
      [(1, [([1], [2], 1), ([0], [3], 1)], [1, 1])] (by decide)⟩

end AmDb
